import Mathlib

/-!
Verification of the `robo` browser demo (a chat-driven 3D robot avatar).

The development shallowly embeds the JavaScript source files
`src/app.js` and the unnamed chat module into Lean:

* the chat response pipeline (`generatePatternResponse`,
  `extractAnimationFromText`, `generateRobotResponse`, conversation-context
  trimming, chat-history storage),
* the animation coordinator (`fadeToAction`, `triggerRobotAction`, the GUI
  emote callbacks, `triggerRobotExpression`),
* the markdown renderer (`renderMarkdown`) of the chat UI.

JavaScript strings are modelled as `List Char` / `String`; `Math.random`
draws are explicit `Nat`/`Bool` parameters (`idx % n` stands for
`Math.floor(Math.random() * n)`); `setTimeout` registrations are recorded in
explicit pending-timer lists; a thrown `TypeError` is modelled as `Option`
failure (`none`).  Fractional animation blend durations (0.2, 0.3, 0.5
seconds) are represented in tenths of a second as naturals; wall-clock
delays (2000 ms, 3000 ms) are kept in milliseconds as in the source.
-/

/-! ## Definitions -/

/-- `begins pat l` is true when `pat` is an initial segment of `l`
(the building block for JS `String.prototype.includes`). -/
def begins : List Char → List Char → Bool
  | [], _ => true
  | _ :: _, [] => false
  | p :: ps, c :: cs => p == c && begins ps cs

/-- `hasSub pat l` is true when `pat` occurs contiguously inside `l`
(JS `l.includes(pat)` on strings). -/
def hasSub (pat : List Char) : List Char → Bool
  | [] => begins pat []
  | c :: cs => begins pat (c :: cs) || hasSub pat cs

/-- Lowercasing, JS `String.prototype.toLowerCase` (character-wise). -/
def lowerStr (s : String) : String := ⟨s.data.map Char.toLower⟩

/-- JS `s.includes(pat)` on `String`s. -/
def strIncludes (s pat : String) : Bool := hasSub pat.data s.data

/-- The character sequence `<sc`: every raw `<script>` element starts with
it, and no HTML tag emitted by the markdown renderer contains it. -/
def scTok : List Char := ['<', 's', 'c']

def btick : Char := Char.ofNat 96

def escChar (target : Char) (rep : List Char) : List Char → List Char
  | [] => []
  | c :: cs => (if c = target then rep else [c]) ++ escChar target rep cs

def escapeHtml (l : List Char) : List Char :=
  escChar '>' "&gt;".data (escChar '<' "&lt;".data (escChar '&' "&amp;".data l))

structure DelimCfg where
  openD : List Char
  closeD : List Char
  capExclude : List Char
  needCap : Bool
  tagO : List Char
  tagC : List Char

def findClose (cfg : DelimCfg) : Nat → Bool → List Char → Option (List Char × List Char)
  | 0, _, _ => none
  | fuel + 1, capEmpty, l =>
    if begins cfg.closeD l && !(cfg.needCap && capEmpty) then
      some ([], l.drop cfg.closeD.length)
    else
      match l with
      | [] => none
      | c :: cs =>
        if c ∈ cfg.capExclude then none
        else (findClose cfg fuel false cs).map fun p => (c :: p.1, p.2)

def findDelim (cfg : DelimCfg) : Nat → List Char → Option (List Char × List Char × List Char)
  | 0, _ => none
  | fuel + 1, l =>
    match l with
    | [] => none
    | c :: cs =>
      if begins cfg.openD (c :: cs) then
        match findClose cfg (fuel + 1) true ((c :: cs).drop cfg.openD.length) with
        | some (cap, r) => some ([], cap, r)
        | none => (findDelim cfg fuel cs).map fun p => (c :: p.1, p.2)
      else (findDelim cfg fuel cs).map fun p => (c :: p.1, p.2)

def replaceDelim (cfg : DelimCfg) : Nat → List Char → List Char
  | 0, l => l
  | fuel + 1, l =>
    match findDelim cfg (l.length + 1) l with
    | none => l
    | some (pre, cap, rest) =>
      pre ++ cfg.tagO ++ cap ++ cfg.tagC ++ replaceDelim cfg fuel rest

def runDelim (cfg : DelimCfg) (l : List Char) : List Char :=
  replaceDelim cfg (l.length + 1) l

def boldStarCfg : DelimCfg :=
  ⟨"**".data, "**".data, ['\n'], false, "<strong>".data, "</strong>".data⟩

def boldLowCfg : DelimCfg :=
  ⟨"__".data, "__".data, ['\n'], false, "<strong>".data, "</strong>".data⟩

def italStarCfg : DelimCfg :=
  ⟨"*".data, "*".data, ['\n'], false, "<em>".data, "</em>".data⟩

def italLowCfg : DelimCfg :=
  ⟨"_".data, "_".data, ['\n'], false, "<em>".data, "</em>".data⟩

def codeCfg : DelimCfg :=
  ⟨[btick], [btick], [btick], true, "<code>".data, "</code>".data⟩

def codeBlockCfg : DelimCfg :=
  ⟨[btick, btick, btick], [btick, btick, btick], [], false,
    "<pre><code>".data, "</code></pre>".data⟩

def headerGo (marker tagO tagC : List Char) : Nat → List Char → List Char
  | 0, l => l
  | fuel + 1, l =>
    if begins marker l then
      let rest := l.drop marker.length
      let cap := rest.takeWhile (· != '\n')
      let r2 := rest.dropWhile (· != '\n')
      tagO ++ cap ++ tagC ++
        (match r2 with
         | [] => []
         | c :: cs => c :: headerGo marker tagO tagC fuel cs)
    else
      let line := l.takeWhile (· != '\n')
      match l.dropWhile (· != '\n') with
      | [] => line
      | c :: cs => line ++ c :: headerGo marker tagO tagC fuel cs

def linkHere (cs : List Char) : Option (List Char × List Char × List Char) :=
  let cap1 := cs.takeWhile (· != ']')
  if cap1.isEmpty then none
  else
    match cs.dropWhile (· != ']') with
    | ']' :: '(' :: r2 =>
      let cap2 := r2.takeWhile (· != ')')
      if cap2.isEmpty then none
      else
        match r2.dropWhile (· != ')') with
        | ')' :: rest => some (cap1, cap2, rest)
        | _ => none
    | _ => none

def findLink : Nat → List Char → Option (List Char × List Char × List Char × List Char)
  | 0, _ => none
  | _ + 1, [] => none
  | fuel + 1, c :: cs =>
    if c = '[' then
      match linkHere cs with
      | some (cap1, cap2, rest) => some ([], cap1, cap2, rest)
      | none => (findLink fuel cs).map fun p => (c :: p.1, p.2.1, p.2.2.1, p.2.2.2)
    else (findLink fuel cs).map fun p => (c :: p.1, p.2.1, p.2.2.1, p.2.2.2)

def linkTagA : List Char := "<a href=\"".data

def linkTagB : List Char := "\" target=\"_blank\" rel=\"noopener\">".data

def linkTagC : List Char := "</a>".data

def replaceLinksGo : Nat → List Char → List Char
  | 0, l => l
  | fuel + 1, l =>
    match findLink (l.length + 1) l with
    | none => l
    | some (pre, cap1, cap2, rest) =>
      pre ++ linkTagA ++ cap2 ++ linkTagB ++ cap1 ++ linkTagC ++ replaceLinksGo fuel rest

def keepNl (cs : List Char) : Bool :=
  let r := cs.dropWhile (· != '<')
  begins "</pre>".data r || begins "</code>".data r

def breaksGo : Nat → List Char → List Char
  | 0, l => l
  | fuel + 1, l =>
    let pre := l.takeWhile (· != '\n')
    match l.dropWhile (· != '\n') with
    | [] => pre
    | c :: cs =>
      if keepNl cs then pre ++ c :: breaksGo fuel cs
      else pre ++ "<br>".data ++ breaksGo fuel cs

def jsWhitespace (c : Char) : Bool :=
  c == ' ' || c == '\t' || c == '\n' || c == '\r' ||
  c == Char.ofNat 11 || c == Char.ofNat 12 || c == Char.ofNat 0xa0 ||
  c == Char.ofNat 0x1680 || (0x2000 ≤ c.toNat && c.toNat ≤ 0x200a) ||
  c == Char.ofNat 0x2028 || c == Char.ofNat 0x2029 || c == Char.ofNat 0x202f ||
  c == Char.ofNat 0x205f || c == Char.ofNat 0x3000 || c == Char.ofNat 0xfeff

def isBullet (c : Char) : Bool := c == '-' || c == '*' || c == '+'

def bulletMatch (l : List Char) : Option (List Char × List Char) :=
  match l.dropWhile jsWhitespace with
  | b :: r2 =>
    if isBullet b then
      if (r2.takeWhile jsWhitespace).isEmpty then none
      else
        let r3 := r2.dropWhile jsWhitespace
        let cap := r3.takeWhile (· != '\n')
        some (cap, r3.dropWhile (· != '\n'))
    else none
  | [] => none

def numMatch (l : List Char) : Option (List Char × List Char) :=
  let r1 := l.dropWhile jsWhitespace
  if (r1.takeWhile Char.isDigit).isEmpty then none
  else
    match r1.dropWhile Char.isDigit with
    | '.' :: r2 =>
      if (r2.takeWhile jsWhitespace).isEmpty then none
      else
        let r3 := r2.dropWhile jsWhitespace
        let cap := r3.takeWhile (· != '\n')
        some (cap, r3.dropWhile (· != '\n'))
    | _ => none

def listGo (m : List Char → Option (List Char × List Char)) :
    Nat → List Char → List Char
  | 0, l => l
  | fuel + 1, l =>
    match m l with
    | some (cap, r4) =>
      "<li>".data ++ cap ++ "</li>".data ++
        (match r4 with
         | [] => []
         | c :: cs => c :: listGo m fuel cs)
    | none =>
      let line := l.takeWhile (· != '\n')
      match l.dropWhile (· != '\n') with
      | [] => line
      | c :: cs => line ++ c :: listGo m fuel cs

def firstOcc (pat : List Char) : List Char → Option Nat
  | [] => if begins pat [] then some 0 else none
  | c :: cs => if begins pat (c :: cs) then some 0 else (firstOcc pat cs).map (· + 1)

def lastOcc (pat : List Char) : List Char → Option Nat
  | [] => if begins pat [] then some 0 else none
  | c :: cs =>
    match lastOcc pat cs with
    | some j => some (j + 1)
    | none => if begins pat (c :: cs) then some 0 else none

def wrapItems (openT closeT : List Char) (l : List Char) : List Char :=
  match firstOcc "<li>".data l with
  | none => l
  | some i =>
    match lastOcc "</li>".data l with
    | none => l
    | some j =>
      if i + 4 ≤ j then
        l.take i ++ openT ++ (l.drop i).take (j + 5 - i) ++ closeT ++ l.drop (j + 5)
      else l

def renderMarkdownL (l : List Char) : List Char :=
  let s1 := escapeHtml l
  let s2 := runDelim boldStarCfg s1
  let s3 := runDelim boldLowCfg s2
  let s4 := runDelim italStarCfg s3
  let s5 := runDelim italLowCfg s4
  let s6 := runDelim codeCfg s5
  let s7 := runDelim codeBlockCfg s6
  let s8 := headerGo "### ".data "<h3>".data "</h3>".data (s7.length + 1) s7
  let s9 := headerGo "## ".data "<h2>".data "</h2>".data (s8.length + 1) s8
  let s10 := headerGo "# ".data "<h1>".data "</h1>".data (s9.length + 1) s9
  let s11 := replaceLinksGo (s10.length + 1) s10
  let s12 := breaksGo (s11.length + 1) s11
  let s13 := listGo bulletMatch (s12.length + 1) s12
  let s14 := wrapItems "<ul>".data "</ul>".data s13
  let s15 := listGo numMatch (s14.length + 1) s14
  wrapItems "<ol>".data "</ol>".data s15

def renderMarkdown (s : String) : String := ⟨renderMarkdownL s.data⟩

/-- Decidable safety of an emitted HTML fragment: it contains no `<sc`, does
not start with `s`/`c` and does not end with `<`/`s`; every tag the renderer
emits satisfies it. -/
def scSafe (tag : List Char) : Bool :=
  !(hasSub scTok tag) &&
    (match tag.head? with
     | some c => !(c == 's' || c == 'c')
     | none => true) &&
    (match tag.getLast? with
     | some c => !(c == '<' || c == 's')
     | none => true)

/-- The normalized output of every response strategy:
`{text, animation, expression}`. -/
structure ResponseResult where
  text : String
  animation : Option String
  expression : Option (String × Int)
deriving DecidableEq

/-- The five emote animation names, in the order of the `animations` list of
`extractAnimationFromText` (app.js line 749). -/
def validAnimations : List String := ["Wave", "Yes", "No", "ThumbsUp", "Punch"]

/-- `extractAnimationFromText` (app.js 748-775): case-insensitive keyword
scan, first matching family wins; with no keyword, a random emote is
suggested with probability 0.3, else none. -/
def extractAnimationFromText (text : String) (roll30 : Bool) (idx : Nat) :
    Option String :=
  let lowerText := lowerStr text
  if strIncludes lowerText "wave" || strIncludes lowerText "hello" ||
      strIncludes lowerText "hi" then some "Wave"
  else if strIncludes lowerText "yes" || strIncludes lowerText "agree" ||
      strIncludes lowerText "correct" then some "Yes"
  else if strIncludes lowerText "no" || strIncludes lowerText "disagree" ||
      strIncludes lowerText "wrong" then some "No"
  else if strIncludes lowerText "thumbs" || strIncludes lowerText "good" ||
      strIncludes lowerText "great" || strIncludes lowerText "awesome" then
    some "ThumbsUp"
  else if strIncludes lowerText "punch" || strIncludes lowerText "power" ||
      strIncludes lowerText "strong" || strIncludes lowerText "energy" then
    some "Punch"
  else if roll30 then
    some (validAnimations.getD (idx % validAnimations.length) "")
  else none

/-- One rule of the pattern strategy: trigger keywords and candidate
replies. -/
structure ResponseRule where
  patterns : List String
  replies : List ResponseResult
deriving DecidableEq

/-- The `responses` table of `generatePatternResponse` (app.js 781-863),
verbatim. -/
def responseRules : List ResponseRule := [
  ⟨["hello", "hi", "hey", "greetings"],
   [⟨"Hello there! Great to meet you!", some "Wave", none⟩,
    ⟨"Hi! How are you doing today?", some "Wave", none⟩,
    ⟨"Hey! Nice to see you!", some "ThumbsUp", none⟩]⟩,
  ⟨["how are you", "how do you feel", "what are you"],
   [⟨"I'm doing great! Just enjoying moving around.", some "Yes", none⟩,
    ⟨"I'm a happy robot! Thanks for asking.", some "ThumbsUp", none⟩,
    ⟨"I'm feeling energetic today!", some "Punch", none⟩,
    ⟨"I'm fantastic! Ready to chat and move around.", some "Wave", none⟩]⟩,
  ⟨["speak", "talk", "say something", "voice", "listen", "hear"],
   [⟨"I love talking! My voice makes me feel more alive.", some "Yes", none⟩,
    ⟨"Speaking is one of my favorite features!", some "ThumbsUp", none⟩,
    ⟨"I can speak in different tones and speeds. Pretty cool, right?", some "Wave", none⟩,
    ⟨"I can hear you too! Try using the microphone button to speak to me.", some "Wave", none⟩]⟩,
  ⟨["dance", "move", "show me moves"],
   [⟨"Sure! Let me show you some moves!", some "Punch", none⟩,
    ⟨"Dancing is my favorite! Watch this!", some "Wave", none⟩]⟩,
  ⟨["good job", "awesome", "cool", "amazing", "great"],
   [⟨"Thank you! That makes me happy!", some "ThumbsUp", none⟩,
    ⟨"Awesome! I appreciate that!", some "Yes", none⟩,
    ⟨"You're too kind! Thanks!", some "Wave", none⟩]⟩,
  ⟨["?"],
   [⟨"That's an interesting question! Let me think about it.", none, none⟩,
    ⟨"Hmm, good question! I'm still learning.", none, none⟩]⟩,
  ⟨["no", "stop", "bad"],
   [⟨"Oh, I understand. I'll try to do better!", some "No", none⟩,
    ⟨"Sorry about that! Let me know how I can help.", some "No", none⟩]⟩,
  ⟨["yes", "ok", "sure", "alright"],
   [⟨"Great! I'm glad we agree!", some "Yes", none⟩,
    ⟨"Excellent! That sounds good to me.", some "ThumbsUp", none⟩]⟩,
  ⟨["default"],
   [⟨"That's interesting! Tell me more.", none, none⟩,
    ⟨"I see! Thanks for sharing that with me.", none, none⟩,
    ⟨"Fascinating! I'm learning so much from you.", none, none⟩,
    ⟨"Cool! I enjoy our conversation.", some "ThumbsUp", none⟩,
    ⟨"That's nice! What else would you like to talk about?", none, none⟩]⟩]

/-- The inner pattern loop: `message.includes(pattern) && pattern !== 'default'`. -/
def matchesRule (message : String) (r : ResponseRule) : Bool :=
  r.patterns.any fun p => strIncludes message p && p != "default"

/-- The outer scan: first rule with a matching trigger wins. -/
def findRule (message : String) : List ResponseRule → Option ResponseRule
  | [] => none
  | r :: rs => if matchesRule message r then some r else findRule message rs

/-- `responses[Math.floor(Math.random() * responses.length)]`. -/
def pickReply (replies : List ResponseResult) (choice : Nat) : ResponseResult :=
  replies.getD (choice % replies.length) ⟨"", none, none⟩

/-- `responses.find(r => r.patterns.includes('default')).responses`. -/
def defaultReplies : List ResponseResult :=
  ((responseRules.find? fun r => r.patterns.contains "default").map
    ResponseRule.replies).getD []

/-- `generatePatternResponse` (app.js 777-878). -/
def generatePatternResponse (userMessage : String) (choice : Nat) :
    ResponseResult :=
  let message := lowerStr userMessage
  match findRule message responseRules with
  | some r => pickReply r.replies choice
  | none => pickReply defaultReplies choice

/-- The LLM provider selector (`llmProvider`). -/
inductive Provider
  | pattern
  | openai
  | ollama
  | webllm
deriving DecidableEq

/-- JS `try { … } catch (error) { … }` over an awaited strategy outcome. -/
def tryCatchE (x : Except String ResponseResult)
    (handler : String → Except String ResponseResult) :
    Except String ResponseResult :=
  match x with
  | .ok r => .ok r
  | .error e => handler e

/-- The `switch (llmProvider)` of `generateRobotResponse` (app.js 659-669).
The three LLM strategies are external asynchronous calls; each outcome is a
parameter: `.ok` for a resolved response, `.error` for a throw/rejection
(missing API key, non-2xx status, network failure, …). -/
def selectStrategy (p : Provider)
    (openaiRes ollamaRes webllmRes : Except String ResponseResult)
    (userMessage : String) (choice : Nat) : Except String ResponseResult :=
  match p with
  | .openai => openaiRes
  | .ollama => ollamaRes
  | .webllm => webllmRes
  | .pattern => .ok (generatePatternResponse userMessage choice)

/-- `generateRobotResponse` (app.js 655-675): dispatch to the selected
strategy inside `try`, falling back to `generatePatternResponse(userMessage)`
in the `catch`. -/
def generateRobotResponse (p : Provider)
    (openaiRes ollamaRes webllmRes : Except String ResponseResult)
    (userMessage : String) (choice : Nat) : Except String ResponseResult :=
  tryCatchE (selectStrategy p openaiRes ollamaRes webllmRes userMessage choice)
    fun _ => .ok (generatePatternResponse userMessage choice)

inductive ChatRole
  | user
  | assistant
deriving DecidableEq

structure ConversationTurn where
  role : ChatRole
  content : String
deriving DecidableEq

/-- The context bookkeeping of one completed exchange in `sendMessage`
(app.js 562-601): push the user turn, push the assistant turn, and trim
`conversationContext` to its last 20 entries (`slice(-20)`) when it exceeds
20. -/
def pushExchange (ctx : List ConversationTurn) (userMsg asst : String) :
    List ConversationTurn :=
  let c := ctx ++ [⟨ChatRole.user, userMsg⟩, ⟨ChatRole.assistant, asst⟩]
  if c.length > 20 then c.drop (c.length - 20) else c

structure ChatMessage where
  text : String
  sender : String
  timestamp : Nat
deriving DecidableEq

/-- The `chatHistory` update of `addMessage` (app.js 634-653 and the chat
module 802-827): system messages are displayed but never stored; other
senders are pushed and the oldest entry is shifted off past 50. -/
def addMessageHistory (history : List ChatMessage) (text sender : String)
    (ts : Nat) : List ChatMessage :=
  if sender = "system" then history
  else
    let h := history ++ [⟨text, sender, ts⟩]
    if h.length > 50 then h.tail else h

inductive AnimEvent
  | fadeOut (name : String) (tenths : Nat)
  | reset (name : String)
  | setTimeScale (name : String) (scale : Nat)
  | setWeight (name : String) (weight : Nat)
  | fadeIn (name : String) (tenths : Nat)
  | play (name : String)
deriving DecidableEq

structure RobotState where
  known : List String
  states : List String
  emotes : List String
  apiState : String
  active : String
  previous : String
  pendingRestores : List Nat
  finishedListeners : List String
deriving DecidableEq

/-- The body of `fadeToAction(name, duration)` (app.js 460-478) when
`actions[name]` exists: record the handles, fade out the previous handle if
it differs, then reset/re-weight/fade-in/play the new one. -/
def fadeCore (name : String) (tenths : Nat) (st : RobotState) :
    RobotState × List AnimEvent :=
  let prev := st.active
  ({ st with active := name, previous := prev },
    (if prev ≠ name then [AnimEvent.fadeOut prev tenths] else []) ++
      [AnimEvent.reset name, AnimEvent.setTimeScale name 1,
        AnimEvent.setWeight name 1, AnimEvent.fadeIn name tenths,
        AnimEvent.play name])

/-- `fadeToAction` itself: for a name missing from the `actions` map,
`activeAction` becomes `undefined` and `activeAction.reset()` throws a
`TypeError`, modelled as `none`. -/
def fadeToAction (name : String) (tenths : Nat) (st : RobotState) :
    Option (RobotState × List AnimEvent) :=
  if name ∈ st.known then some (fadeCore name tenths st) else none

/-- `triggerRobotAction` (app.js 880-893): guarded by `actions[actionName]`;
an emote additionally schedules `setTimeout(() => fadeToAction(api.state,
0.3), 2000)` — one fresh timer per call, never cancelled. -/
def triggerRobotAction (name : String) (now : Nat) (st : RobotState) :
    RobotState :=
  if name ∈ st.known then
    let st1 := (fadeCore name 3 st).1
    if name ∈ st1.emotes then
      { st1 with pendingRestores := st1.pendingRestores ++ [now + 2000] }
    else st1
  else st

/-- three.js `EventDispatcher.addEventListener`: a listener that is already
registered is not added a second time. -/
def addFinishedListener (ls : List String) (id : String) : List String :=
  if id ∈ ls then ls else ls ++ [id]

/-- The GUI emote callback built by `createEmoteCallback` (app.js 319-331):
fade to the emote and register the shared `restoreState` watcher on the
mixer's `finished` event. -/
def emoteCallback (name : String) (st : RobotState) :
    RobotState × List AnimEvent :=
  let p := fadeCore name 2 st
  ({ p.1 with finishedListeners :=
      addFinishedListener p.1.finishedListeners "restoreState" }, p.2)

/-- `restoreState` (app.js 333-339): deregister itself, then fade back to
`api.state`. -/
def restoreState (st : RobotState) : RobotState × List AnimEvent :=
  let st1 := { st with
    finishedListeners := st.finishedListeners.filter (· != "restoreState") }
  fadeCore st.apiState 2 st1

structure ExpressionState where
  expressions : List String
  influences : List Int
  pendingResets : List (Nat × Nat)
deriving DecidableEq

/-- `triggerRobotExpression` (app.js 895-910): look the name up in the
expression list; when found, set the morph-target influence and schedule a
reset to zero 3000 ms later. No handle is kept and no timer is ever
cancelled. -/
def triggerRobotExpression (name : String) (value : Int) (now : Nat)
    (st : ExpressionState) : ExpressionState :=
  match st.expressions.findIdx? (· == name) with
  | some i =>
    { st with influences := st.influences.set i value,
              pendingResets := st.pendingResets ++ [(now + 3000, i)] }
  | none => st

/-- A coordinator state as built by `createGUI` for the RobotExpressive
model: all fourteen animation clips in the `actions` map, the two persistent
states, the five emotes, idling. -/
def robotSt0 : RobotState :=
  { known := ["Dance", "Death", "Idle", "Jump", "No", "Punch", "Running",
      "Sitting", "Standing", "ThumbsUp", "Walking", "WalkJump", "Wave", "Yes"],
    states := ["Idle", "Walking"],
    emotes := ["Yes", "No", "Wave", "Punch", "ThumbsUp"],
    apiState := "Idle", active := "Idle", previous := "Idle",
    pendingRestores := [], finishedListeners := [] }

/-- An expression state with the three morph targets of the model's head
(`Object.keys(face.morphTargetDictionary)`), all influences zero. -/
def exprSt0 : ExpressionState :=
  { expressions := ["Angry", "Surprised", "Sad"],
    influences := [0, 0, 0], pendingResets := [] }

/-- The replies of the greeting rule, verbatim from the source table. -/
def greetingReplies : List ResponseResult :=
  [⟨"Hello there! Great to meet you!", some "Wave", none⟩,
   ⟨"Hi! How are you doing today?", some "Wave", none⟩,
   ⟨"Hey! Nice to see you!", some "ThumbsUp", none⟩]

/-- An animation field is either absent or one of the five emote names. -/
def animValid (o : Option String) : Bool :=
  match o with
  | none => true
  | some a => validAnimations.contains a

/-! ## Theorems -/

theorem begins_iff (pat l : List Char) :
    begins pat l = true ↔ ∃ r, l = pat ++ r := by
  induction pat generalizing l with
  | nil => simp [begins]
  | cons p ps ih =>
    cases l with
    | nil => simp [begins]
    | cons c cs =>
      simp only [begins, Bool.and_eq_true, beq_iff_eq, ih, List.cons_append,
        List.cons.injEq]
      constructor
      · rintro ⟨rfl, r, rfl⟩; exact ⟨r, rfl, rfl⟩
      · rintro ⟨r, rfl, rfl⟩; exact ⟨rfl, r, rfl⟩

theorem hasSub_iff (pat l : List Char) :
    hasSub pat l = true ↔ ∃ x y, l = x ++ pat ++ y := by
  induction l with
  | nil =>
    simp only [hasSub, begins_iff]
    constructor
    · rintro ⟨r, h⟩; exact ⟨[], r, by simpa using h⟩
    · rintro ⟨x, y, h⟩
      have h3 : x = [] ∧ pat = [] ∧ y = [] := by simpa [List.append_assoc] using h.symm
      exact ⟨[], by simp [h3.2.1]⟩
  | cons c cs ih =>
    simp only [hasSub, Bool.or_eq_true, begins_iff, ih]
    constructor
    · rintro (⟨r, h⟩ | ⟨x, y, h⟩)
      · exact ⟨[], r, by simpa using h⟩
      · exact ⟨c :: x, y, by simp [h]⟩
    · rintro ⟨x, y, h⟩
      cases x with
      | nil => exact Or.inl ⟨y, by simpa using h⟩
      | cons a as =>
        simp only [List.cons_append, List.cons.injEq] at h
        exact Or.inr ⟨as, y, h.2⟩

theorem hasSub_append_left {pat a : List Char} (b : List Char)
    (h : hasSub pat a = true) : hasSub pat (a ++ b) = true := by
  rcases (hasSub_iff pat a).mp h with ⟨x, y, rfl⟩
  exact (hasSub_iff _ _).mpr ⟨x, y ++ b, by simp⟩

theorem hasSub_append_right {pat b : List Char} (a : List Char)
    (h : hasSub pat b = true) : hasSub pat (a ++ b) = true := by
  rcases (hasSub_iff pat b).mp h with ⟨x, y, rfl⟩
  exact (hasSub_iff _ _).mpr ⟨a ++ x, y, by simp⟩

/-- A pattern occurring in a factor occurs in the product; contrapositive of
the "no occurrence" invariants used below. -/
theorem not_hasSub_of_append_left {pat a b : List Char}
    (h : hasSub pat (a ++ b) = false) : hasSub pat a = false := by
  cases hc : hasSub pat a
  · rfl
  · exact absurd h (by simp [hasSub_append_left b hc])

theorem chars_of_hasSub {pat l : List Char} (h : hasSub pat l = true) :
    ∀ c ∈ pat, c ∈ l := by
  rcases (hasSub_iff pat l).mp h with ⟨x, y, rfl⟩
  intro c hc
  simp [List.mem_append, hc]

theorem hasSub_nil_pat (l : List Char) : hasSub [] l = true := by
  cases l <;> simp [hasSub, begins]

theorem hasSub_cons_of {pat l : List Char} (c : Char)
    (h : hasSub pat l = true) : hasSub pat (c :: l) = true := by
  simp [hasSub, h]

theorem hasSub_of_begins {pat l : List Char} (h : begins pat l = true) :
    hasSub pat l = true := by
  cases l with
  | nil => simpa [hasSub] using h
  | cons c cs => simp [hasSub, h]

theorem begins_refl (l : List Char) : begins l l = true :=
  (begins_iff l l).mpr ⟨[], by simp⟩

theorem begins_append_cases {pat b : List Char} :
    ∀ a : List Char, begins pat (a ++ b) = true →
      begins pat a = true ∨ ∃ p2, pat = a ++ p2 ∧ begins p2 b = true := by
  intro a
  induction a generalizing pat with
  | nil => intro h; exact Or.inr ⟨pat, rfl, by simpa using h⟩
  | cons c a' ih =>
    intro h
    cases pat with
    | nil => exact Or.inl rfl
    | cons p ps =>
      simp only [List.cons_append, begins, Bool.and_eq_true, beq_iff_eq] at h
      rcases h with ⟨rfl, h2⟩
      rcases ih h2 with h3 | ⟨p2, rfl, h4⟩
      · exact Or.inl (by simp [begins, h3])
      · exact Or.inr ⟨p2, by simp, h4⟩

/-- Occurrence of a pattern in `a ++ b`: it is inside `a`, inside `b`, or it
straddles the seam (a nonempty suffix piece in `a`, a nonempty initial piece
in `b`). -/
theorem hasSub_append_cases {pat b : List Char} :
    ∀ a : List Char, hasSub pat (a ++ b) = true →
      hasSub pat a = true ∨ hasSub pat b = true ∨
      ∃ p1 p2, pat = p1 ++ p2 ∧ p1 ≠ [] ∧ p2 ≠ [] ∧
        (∃ x, a = x ++ p1) ∧ begins p2 b = true := by
  intro a
  induction a with
  | nil => intro h; exact Or.inr (Or.inl (by simpa using h))
  | cons c a' ih =>
    intro h
    have h' : begins pat (c :: (a' ++ b)) = true ∨ hasSub pat (a' ++ b) = true := by
      simpa [hasSub] using h
    rcases h' with h1 | h2
    · have h1' : begins pat ((c :: a') ++ b) = true := by simpa using h1
      rcases begins_append_cases (c :: a') h1' with h3 | ⟨p2, rfl, h4⟩
      · exact Or.inl (hasSub_of_begins h3)
      · cases p2 with
        | nil => exact Or.inl (by simpa using hasSub_of_begins (begins_refl (c :: a')))
        | cons q qs =>
          exact Or.inr (Or.inr ⟨c :: a', q :: qs, rfl, by simp, by simp,
            ⟨[], by simp⟩, h4⟩)
    · rcases ih h2 with h3 | h4 | ⟨p1, p2, rfl, hp1, hp2, ⟨x, rfl⟩, h5⟩
      · exact Or.inl (hasSub_cons_of c h3)
      · exact Or.inr (Or.inl h4)
      · exact Or.inr (Or.inr ⟨p1, p2, rfl, hp1, hp2, ⟨c :: x, by simp⟩, h5⟩)

/-- If a separator block `d` contains no character of the pattern, an
occurrence in `a ++ d ++ b` lies wholly inside `a` or wholly inside `b`. -/
theorem hasSub_through_sep {pat a d b : List Char} (hd : d ≠ [])
    (hdisj : ∀ c ∈ d, c ∉ pat) (h : hasSub pat (a ++ (d ++ b)) = true) :
    hasSub pat a = true ∨ hasSub pat b = true := by
  cases pat with
  | nil => exact Or.inl (hasSub_nil_pat a)
  | cons p ps =>
    rcases hasSub_append_cases a h with h1 | h2 | ⟨p1, p2, hpat, hp1, hp2, _, h5⟩
    · exact Or.inl h1
    · -- occurrence inside d ++ b
      rcases hasSub_append_cases d h2 with h3 | h4 | ⟨q1, q2, hq, hq1, hq2, ⟨x, hx⟩, h6⟩
      · exact absurd (chars_of_hasSub h3 p (by simp)) fun hm =>
          hdisj p hm (by simp)
      · exact Or.inr h4
      · cases q1 with
        | nil => exact absurd rfl hq1
        | cons r rs =>
          refine absurd (hdisj r ?_ ?_) not_false
          · rw [hx]; simp
          · rw [hq]; simp
    · -- straddle at the a | d ++ b seam: the piece in d ++ b starts with d's head
      cases p2 with
      | nil => exact absurd rfl hp2
      | cons q qs =>
        cases d with
        | nil => exact absurd rfl hd
        | cons e es =>
          have h5' : begins (q :: qs) (e :: (es ++ b)) = true := by simpa using h5
          simp only [begins, Bool.and_eq_true, beq_iff_eq] at h5'
          obtain ⟨rfl, -⟩ := h5'
          refine absurd (hdisj q (by simp) ?_) not_false
          rw [hpat]; simp

theorem getLast?_factor {a p1 : List Char} (x : List Char) (hp1 : p1 ≠ [])
    (hx : a = x ++ p1) : a.getLast? = p1.getLast? := by
  subst hx
  exact List.getLast?_append_of_ne_nil x hp1

/-- Occurrence across `a ++ m ++ b` where `m` is nonempty and neither its
first nor last character belongs to the pattern: the occurrence is wholly in
`a`, `m`, or `b`. -/
theorem hasSub_through_mid {pat a m b : List Char} (hm : m ≠ [])
    (hhead : ∀ c cs, m = c :: cs → c ∉ pat)
    (hlast : ∀ c, m.getLast? = some c → c ∉ pat)
    (h : hasSub pat (a ++ (m ++ b)) = true) :
    hasSub pat a = true ∨ hasSub pat m = true ∨ hasSub pat b = true := by
  rcases hasSub_append_cases a h with h1 | h2 | ⟨p1, p2, hpat, hp1, hp2, _, h5⟩
  · exact Or.inl h1
  · rcases hasSub_append_cases m h2 with h3 | h4 | ⟨q1, q2, hq, hq1, hq2, ⟨x, hx⟩, h6⟩
    · exact Or.inr (Or.inl h3)
    · exact Or.inr (Or.inr h4)
    · -- straddle at the m | b seam: the suffix piece ends with m's last char
      rcases List.exists_cons_of_ne_nil hq1 with ⟨r, rs, rfl⟩
      have hne : (r :: rs) ≠ ([] : List Char) := by simp
      have hlast1 : m.getLast? = (r :: rs).getLast? := getLast?_factor x hq1 hx
      have hlast2 : (r :: rs).getLast? = some ((r :: rs).getLast hne) :=
        List.getLast?_eq_getLast _ hne
      refine absurd (hlast _ (hlast1.trans hlast2) ?_) not_false
      rw [hq]
      exact List.mem_append_left _ (List.getLast_mem hne)
  · rcases List.exists_cons_of_ne_nil hp2 with ⟨q, qs, rfl⟩
    rcases List.exists_cons_of_ne_nil hm with ⟨e, es, rfl⟩
    have h5' : begins (q :: qs) (e :: (es ++ b)) = true := by simpa using h5
    simp only [begins, Bool.and_eq_true, beq_iff_eq] at h5'
    obtain ⟨rfl, -⟩ := h5'
    refine absurd (hhead q es rfl ?_) not_false
    rw [hpat]; simp

theorem scTok_split {p1 p2 : List Char} (h : p1 ++ p2 = scTok)
    (h1 : p1 ≠ []) (h2 : p2 ≠ []) :
    (p1 = ['<'] ∧ p2 = ['s', 'c']) ∨ (p1 = ['<', 's'] ∧ p2 = ['c']) := by
  rcases p1 with - | ⟨a, - | ⟨b, - | ⟨c, t⟩⟩⟩
  · exact absurd rfl h1
  · simp only [scTok, List.cons_append, List.nil_append] at h
    injection h with ha htail
    exact Or.inl ⟨by rw [ha], htail⟩
  · simp only [scTok, List.cons_append, List.nil_append] at h
    injection h with ha h
    injection h with hb htail
    exact Or.inr ⟨by rw [ha, hb], htail⟩
  · simp only [scTok, List.cons_append] at h
    injection h with h9 h
    injection h with h8 h
    injection h with h7 h
    exact absurd (List.append_eq_nil.mp h).2 h2

/-- `a ++ b` stays `<sc`-free when `b` does not start with `'s'` or `'c'`. -/
theorem noSC_append_headsafe {a b : List Char}
    (ha : hasSub scTok a = false) (hb : hasSub scTok b = false)
    (hh : ∀ c cs, b = c :: cs → c ≠ 's' ∧ c ≠ 'c') :
    hasSub scTok (a ++ b) = false := by
  cases hcon : hasSub scTok (a ++ b)
  · rfl
  · exfalso
    rcases hasSub_append_cases a hcon with h1 | h2 | ⟨p1, p2, hpat, hp1, hp2, -, h5⟩
    · exact Bool.noConfusion (ha.symm.trans h1)
    · exact Bool.noConfusion (hb.symm.trans h2)
    · rcases scTok_split hpat.symm hp1 hp2 with ⟨-, rfl⟩ | ⟨-, rfl⟩
      · rcases (begins_iff _ _).mp h5 with ⟨r, rfl⟩
        exact (hh 's' ('c' :: r) rfl).1 rfl
      · rcases (begins_iff _ _).mp h5 with ⟨r, rfl⟩
        exact (hh 'c' r rfl).2 rfl

/-- `a ++ b` stays `<sc`-free when `a` does not end with `'<'` or `'s'`. -/
theorem noSC_append_lastsafe {a b : List Char}
    (ha : hasSub scTok a = false) (hb : hasSub scTok b = false)
    (hl : ∀ c, a.getLast? = some c → c ≠ '<' ∧ c ≠ 's') :
    hasSub scTok (a ++ b) = false := by
  cases hcon : hasSub scTok (a ++ b)
  · rfl
  · exfalso
    rcases hasSub_append_cases a hcon with h1 | h2 | ⟨p1, p2, hpat, hp1, hp2, ⟨x, hx⟩, -⟩
    · exact Bool.noConfusion (ha.symm.trans h1)
    · exact Bool.noConfusion (hb.symm.trans h2)
    · rcases scTok_split hpat.symm hp1 hp2 with ⟨rfl, -⟩ | ⟨rfl, -⟩
      · exact (hl '<' (by rw [getLast?_factor x hp1 hx]; rfl)).1 rfl
      · exact (hl 's' (by rw [getLast?_factor x hp1 hx]; rfl)).2 rfl

theorem hasSub_nil_false {pat : List Char} (h : pat ≠ []) :
    hasSub pat [] = false := by
  cases pat with
  | nil => exact absurd rfl h
  | cons p ps => simp [hasSub, begins]

theorem not_hasSub_factor {pat x a y : List Char}
    (h : hasSub pat (x ++ (a ++ y)) = false) : hasSub pat a = false := by
  cases hc : hasSub pat a
  · rfl
  · exact absurd h (by simp [hasSub_append_right x (hasSub_append_left y hc)])

theorem dropWhile_head_not {p : Char → Bool} :
    ∀ {l : List Char} {c : Char} {cs : List Char},
      l.dropWhile p = c :: cs → p c = false := by
  intro l
  induction l with
  | nil => intro c cs h; simp [List.dropWhile] at h
  | cons a as ih =>
    intro c cs h
    rw [List.dropWhile_cons] at h
    split at h
    · exact ih h
    · injection h with h1 h2
      subst h1
      rename_i hpa
      exact Bool.eq_false_iff.mpr hpa

theorem scSafe_noSC {tag : List Char} (h : scSafe tag = true) :
    hasSub scTok tag = false := by
  simp only [scSafe, Bool.and_eq_true, Bool.not_eq_true'] at h
  exact h.1.1

theorem scSafe_head {tag : List Char} (h : scSafe tag = true) :
    ∀ c cs, tag = c :: cs → c ≠ 's' ∧ c ≠ 'c' := by
  intro c cs hc
  subst hc
  simp only [scSafe, List.head?, Bool.and_eq_true, Bool.not_eq_true',
    Bool.or_eq_false_iff, beq_eq_false_iff_ne] at h
  exact h.1.2

theorem scSafe_last {tag : List Char} (h : scSafe tag = true) :
    ∀ c, tag.getLast? = some c → c ≠ '<' ∧ c ≠ 's' := by
  intro c hc
  simp only [scSafe, Bool.and_eq_true] at h
  have h2 := h.2
  rw [hc] at h2
  simp only [Bool.not_eq_true', Bool.or_eq_false_iff, beq_eq_false_iff_ne] at h2
  exact h2

/-- Splicing a safe tag between two `<sc`-free chunks keeps `<sc` out. -/
theorem noSC_chunks {a tag rest : List Char} (ha : hasSub scTok a = false)
    (ht : scSafe tag = true) (htne : tag ≠ [])
    (hr : hasSub scTok rest = false) :
    hasSub scTok (a ++ (tag ++ rest)) = false := by
  rcases List.exists_cons_of_ne_nil htne with ⟨t0, ts, rfl⟩
  refine noSC_append_headsafe ha ?_ ?_
  · exact noSC_append_lastsafe (scSafe_noSC ht) hr (scSafe_last ht)
  · intro c cs hc
    simp only [List.cons_append] at hc
    injection hc with h1 h2
    exact h1 ▸ scSafe_head ht t0 ts rfl

theorem escChar_append (t : Char) (rep a b : List Char) :
    escChar t rep (a ++ b) = escChar t rep a ++ escChar t rep b := by
  induction a with
  | nil => simp [escChar]
  | cons c cs ih => simp [escChar, ih]

theorem escapeHtml_append (a b : List Char) :
    escapeHtml (a ++ b) = escapeHtml a ++ escapeHtml b := by
  simp [escapeHtml, escChar_append]

theorem mem_escChar {t : Char} {rep l : List Char} {c : Char}
    (h : c ∈ escChar t rep l) : c ∈ rep ∨ (c ∈ l ∧ c ≠ t) := by
  induction l with
  | nil => simp [escChar] at h
  | cons a as ih =>
    simp only [escChar, List.mem_append] at h
    rcases h with h1 | h2
    · split at h1
      · exact Or.inl h1
      · simp only [List.mem_singleton] at h1
        subst h1
        exact Or.inr ⟨by simp, ‹¬_›⟩
    · rcases ih h2 with h3 | ⟨h4, h5⟩
      · exact Or.inl h3
      · exact Or.inr ⟨by simp [h4], h5⟩

theorem escapeHtml_no_lt {l : List Char} : ∀ c ∈ escapeHtml l, c ≠ '<' := by
  intro c hc
  rcases mem_escChar hc with h1 | ⟨h2, -⟩
  · intro he; subst he; simp at h1
  · rcases mem_escChar h2 with h3 | ⟨-, h4⟩
    · intro he; subst he; simp at h3
    · exact h4

theorem escapeHtml_noSC (l : List Char) :
    hasSub scTok (escapeHtml l) = false := by
  cases hc : hasSub scTok (escapeHtml l)
  · rfl
  · exact absurd (chars_of_hasSub hc '<' (by simp [scTok]))
      fun hm => escapeHtml_no_lt '<' hm rfl

theorem escapeHtml_keeps_script {l : List Char}
    (h : hasSub "<script>".data l = true) :
    hasSub "&lt;script&gt;".data (escapeHtml l) = true := by
  rcases (hasSub_iff _ _).mp h with ⟨x, y, rfl⟩
  rw [escapeHtml_append, escapeHtml_append]
  refine (hasSub_iff _ _).mpr ⟨escapeHtml x, escapeHtml y, ?_⟩
  have hs : escapeHtml "<script>".data = "&lt;script&gt;".data := by decide
  rw [hs]

theorem begins_drop_decomp {pat l : List Char} (h : begins pat l = true) :
    l = pat ++ l.drop pat.length := by
  rcases (begins_iff pat l).mp h with ⟨r, rfl⟩
  rw [List.drop_left]

theorem findClose_spec (cfg : DelimCfg) :
    ∀ fuel capEmpty l cap r,
      findClose cfg fuel capEmpty l = some (cap, r) →
      l = cap ++ (cfg.closeD ++ r) := by
  intro fuel
  induction fuel with
  | zero => intro capEmpty l cap r h; simp [findClose] at h
  | succ n ih =>
    intro capEmpty l cap r h
    cases l with
    | nil =>
      simp only [findClose] at h
      split at h
      · rename_i hcond
        simp only [Bool.and_eq_true] at hcond
        simp only [Option.some.injEq, Prod.mk.injEq] at h
        obtain ⟨h1, h2⟩ := h
        subst h1; subst h2
        simpa using begins_drop_decomp hcond.1
      · exact absurd h (by simp)
    | cons c cs =>
      simp only [findClose] at h
      split at h
      · rename_i hcond
        simp only [Bool.and_eq_true] at hcond
        simp only [Option.some.injEq, Prod.mk.injEq] at h
        obtain ⟨h1, h2⟩ := h
        subst h1; subst h2
        simpa using begins_drop_decomp hcond.1
      · split at h
        · exact absurd h (by simp)
        · rw [Option.map_eq_some'] at h
          obtain ⟨⟨cap', r'⟩, hfc, heq⟩ := h
          simp only [Prod.mk.injEq] at heq
          obtain ⟨h1, h2⟩ := heq
          subst h1; subst h2
          simpa using ih false cs cap' r' hfc

theorem findDelim_spec (cfg : DelimCfg) :
    ∀ fuel l pre cap rest,
      findDelim cfg fuel l = some (pre, cap, rest) →
      l = pre ++ (cfg.openD ++ (cap ++ (cfg.closeD ++ rest))) := by
  intro fuel
  induction fuel with
  | zero => intro l pre cap rest h; simp [findDelim] at h
  | succ n ih =>
    intro l pre cap rest h
    cases l with
    | nil => simp [findDelim] at h
    | cons c cs =>
      simp only [findDelim] at h
      split at h
      · rename_i hop
        rcases hfc : findClose cfg (n + 1) true ((c :: cs).drop cfg.openD.length)
          with - | ⟨cap', r⟩
        · rw [hfc] at h
          simp only [Option.map_eq_some'] at h
          obtain ⟨⟨pre', cap2, rest2⟩, hfd, heq⟩ := h
          simp only [Prod.mk.injEq] at heq
          obtain ⟨h1, h2, h3⟩ := heq
          subst h1; subst h2; subst h3
          simpa using ih cs pre' cap2 rest2 hfd
        · rw [hfc] at h
          simp only [Option.some.injEq, Prod.mk.injEq] at h
          obtain ⟨h1, h2, h3⟩ := h
          subst h1; subst h2; subst h3
          have hd := begins_drop_decomp hop
          have hc := findClose_spec cfg (n + 1) true _ _ _ hfc
          rw [hc] at hd
          simpa using hd
      · rw [Option.map_eq_some'] at h
        obtain ⟨⟨pre', cap2, rest2⟩, hfd, heq⟩ := h
        simp only [Prod.mk.injEq] at heq
        obtain ⟨h1, h2, h3⟩ := heq
        subst h1; subst h2; subst h3
        simpa using ih cs pre' cap2 rest2 hfd

theorem not_hasSub_of_append_right {pat a b : List Char}
    (h : hasSub pat (a ++ b) = false) : hasSub pat b = false := by
  cases hc : hasSub pat b
  · rfl
  · exact absurd h (by simp [hasSub_append_right a hc])

/-- A delimited rule whose tags are `<sc`-safe preserves `<sc`-freeness. -/
theorem replaceDelim_noSC (cfg : DelimCfg)
    (hO : scSafe cfg.tagO = true) (hOne : cfg.tagO ≠ [])
    (hC : scSafe cfg.tagC = true) (hCne : cfg.tagC ≠ []) :
    ∀ fuel l, hasSub scTok l = false →
      hasSub scTok (replaceDelim cfg fuel l) = false := by
  intro fuel
  induction fuel with
  | zero => intro l h; simpa [replaceDelim] using h
  | succ n ih =>
    intro l h
    simp only [replaceDelim]
    rcases hfd : findDelim cfg (l.length + 1) l with - | ⟨pre, cap, rest⟩
    · simp only [hfd]; exact h
    · simp only [hfd]
      simp only [List.append_assoc]
      have hspec := findDelim_spec cfg (l.length + 1) l pre cap rest hfd
      rw [hspec] at h
      have hpre := not_hasSub_of_append_left h
      have h1 := not_hasSub_of_append_right h
      have h2 := not_hasSub_of_append_right h1
      have hcap := not_hasSub_of_append_left h2
      have h3 := not_hasSub_of_append_right h2
      have hrest := not_hasSub_of_append_right h3
      exact noSC_chunks hpre hO hOne (noSC_chunks hcap hC hCne (ih rest hrest))

/-- A delimited rule whose delimiters contain no character of `t` preserves
every occurrence of `t` (the capture and surrounding text are re-emitted
verbatim). -/
theorem replaceDelim_keep (cfg : DelimCfg) (t : List Char)
    (hOne : cfg.openD ≠ []) (hCne : cfg.closeD ≠ [])
    (hOdis : ∀ c ∈ cfg.openD, c ∉ t) (hCdis : ∀ c ∈ cfg.closeD, c ∉ t) :
    ∀ fuel l, hasSub t l = true → hasSub t (replaceDelim cfg fuel l) = true := by
  intro fuel
  induction fuel with
  | zero => intro l h; simpa [replaceDelim] using h
  | succ n ih =>
    intro l h
    simp only [replaceDelim]
    rcases hfd : findDelim cfg (l.length + 1) l with - | ⟨pre, cap, rest⟩
    · simp only [hfd]; exact h
    · simp only [hfd]
      simp only [List.append_assoc]
      have hspec := findDelim_spec cfg (l.length + 1) l pre cap rest hfd
      rw [hspec] at h
      rcases hasSub_through_sep hOne hOdis h with hpre | hrest1
      · exact hasSub_append_left _ hpre
      · rcases hasSub_through_sep hCne hCdis hrest1 with hcap | hrest
        · exact hasSub_append_right pre (hasSub_append_right cfg.tagO
            (hasSub_append_left _ hcap))
        · exact hasSub_append_right pre (hasSub_append_right cfg.tagO
            (hasSub_append_right cap (hasSub_append_right cfg.tagC (ih rest hrest))))

theorem not_hasSub_of_cons {pat : List Char} {c : Char} {l : List Char}
    (h : hasSub pat (c :: l) = false) : hasSub pat l = false := by
  have h' : hasSub pat ([c] ++ l) = false := by simpa using h
  exact not_hasSub_of_append_right h'

theorem noSC_of_nil : hasSub scTok [] = false := by decide

theorem nlSafe : scSafe ['\n'] = true := by decide

theorem noSC_tag_pre {tag rest : List Char} (ht : scSafe tag = true)
    (htne : tag ≠ []) (hr : hasSub scTok rest = false) :
    hasSub scTok (tag ++ rest) = false := by
  simpa using noSC_chunks noSC_of_nil ht htne hr

/-- Skipping a leading separator block: the pattern occurrence is in the tail. -/
theorem hasSub_behind_sep {pat d b : List Char} (hd : d ≠ [])
    (hdisj : ∀ c ∈ d, c ∉ pat) (hpne : pat ≠ [])
    (h : hasSub pat (d ++ b) = true) : hasSub pat b = true := by
  rcases hasSub_through_sep (a := []) hd hdisj (by simpa using h) with h1 | h2
  · exact absurd h1 (by simp [hasSub_nil_false hpne])
  · exact h2

theorem takeWhile_eq_self_of_dropWhile_nil {p : Char → Bool} {l : List Char}
    (h : l.dropWhile p = []) : l.takeWhile p = l := by
  have h2 := List.takeWhile_append_dropWhile (p := p) (l := l)
  rw [h, List.append_nil] at h2
  exact h2

/-- The header rule preserves `<sc`-freeness. -/
theorem headerGo_noSC (marker tagO tagC : List Char)
    (hO : scSafe tagO = true) (hOne : tagO ≠ [])
    (hC : scSafe tagC = true) (hCne : tagC ≠ []) :
    ∀ fuel l, hasSub scTok l = false →
      hasSub scTok (headerGo marker tagO tagC fuel l) = false := by
  intro fuel
  induction fuel with
  | zero => intro l h; simpa [headerGo] using h
  | succ n ih =>
    intro l h
    simp only [headerGo]
    split
    · rename_i hm
      have hdec : l = marker ++ l.drop marker.length := begins_drop_decomp hm
      have hdec2 : (l.drop marker.length).takeWhile (· != '\n') ++
          (l.drop marker.length).dropWhile (· != '\n') = l.drop marker.length :=
        List.takeWhile_append_dropWhile _ _
      have hrest : hasSub scTok (l.drop marker.length) = false := by
        rw [hdec] at h
        exact not_hasSub_of_append_right h
      have hcap : hasSub scTok ((l.drop marker.length).takeWhile (· != '\n')) = false := by
        rw [← hdec2] at hrest
        exact not_hasSub_of_append_left hrest
      have hr2 : hasSub scTok ((l.drop marker.length).dropWhile (· != '\n')) = false := by
        rw [← hdec2] at hrest
        exact not_hasSub_of_append_right hrest
      rcases hdw : (l.drop marker.length).dropWhile (· != '\n') with - | ⟨c, cs⟩
      · simp only [hdw]
        simp only [List.append_assoc, List.append_nil]
        refine noSC_tag_pre hO hOne ?_
        simpa using noSC_chunks hcap hC hCne noSC_of_nil
      · simp only [hdw]
        have hc : c = '\n' := by simpa using dropWhile_head_not hdw
        subst hc
        rw [hdw] at hr2
        have hcs : hasSub scTok cs = false := not_hasSub_of_cons hr2
        simp only [List.append_assoc]
        refine noSC_tag_pre hO hOne (noSC_chunks hcap hC hCne ?_)
        simpa using noSC_tag_pre nlSafe (by simp) (ih cs hcs)
    · have hdec2 : l.takeWhile (· != '\n') ++ l.dropWhile (· != '\n') = l :=
        List.takeWhile_append_dropWhile _ _
      rcases hdw : l.dropWhile (· != '\n') with - | ⟨c, cs⟩
      · simp only [hdw]
        rw [takeWhile_eq_self_of_dropWhile_nil hdw]
        exact h
      · simp only [hdw]
        have hc : c = '\n' := by simpa using dropWhile_head_not hdw
        subst hc
        have hline : hasSub scTok (l.takeWhile (· != '\n')) = false := by
          rw [← hdec2] at h
          exact not_hasSub_of_append_left h
        have hcs : hasSub scTok cs = false := by
          rw [← hdec2, hdw] at h
          exact not_hasSub_of_cons (not_hasSub_of_append_right h)
        simpa using noSC_chunks hline nlSafe (by simp) (ih cs hcs)

/-- The header rule preserves every occurrence of a token `t` that contains
no newline and no marker character. -/
theorem headerGo_keep (marker tagO tagC t : List Char)
    (hmne : marker ≠ []) (htne : t ≠ [])
    (hmdis : ∀ c ∈ marker, c ∉ t) (hnl : '\n' ∉ t) :
    ∀ fuel l, hasSub t l = true →
      hasSub t (headerGo marker tagO tagC fuel l) = true := by
  intro fuel
  induction fuel with
  | zero => intro l h; simpa [headerGo] using h
  | succ n ih =>
    intro l h
    simp only [headerGo]
    split
    · rename_i hm
      have hdec : l = marker ++ l.drop marker.length := begins_drop_decomp hm
      have hdec2 : (l.drop marker.length).takeWhile (· != '\n') ++
          (l.drop marker.length).dropWhile (· != '\n') = l.drop marker.length :=
        List.takeWhile_append_dropWhile _ _
      have hrest : hasSub t (l.drop marker.length) = true := by
        rw [hdec] at h
        exact hasSub_behind_sep hmne hmdis htne h
      rcases hdw : (l.drop marker.length).dropWhile (· != '\n') with - | ⟨c, cs⟩
      · simp only [hdw]
        rw [hdw, List.append_nil] at hdec2
        rw [← hdec2] at hrest
        simp only [List.append_assoc, List.append_nil]
        exact hasSub_append_right tagO (hasSub_append_left _ hrest)
      · simp only [hdw]
        have hc : c = '\n' := by simpa using dropWhile_head_not hdw
        subst hc
        rw [← hdec2, hdw] at hrest
        have hsplit : hasSub t ((l.drop marker.length).takeWhile (· != '\n')) = true ∨
            hasSub t cs = true := by
          refine hasSub_through_sep (d := ['\n']) (by simp) ?_ (by simpa using hrest)
          intro x hx
          simp only [List.mem_singleton] at hx
          subst hx
          exact hnl
        simp only [List.append_assoc]
        rcases hsplit with hcap | hcs
        · exact hasSub_append_right tagO (hasSub_append_left _ hcap)
        · exact hasSub_append_right tagO (hasSub_append_right _
            (hasSub_append_right tagC (hasSub_cons_of '\n' (ih cs hcs))))
    · have hdec2 : l.takeWhile (· != '\n') ++ l.dropWhile (· != '\n') = l :=
        List.takeWhile_append_dropWhile _ _
      rcases hdw : l.dropWhile (· != '\n') with - | ⟨c, cs⟩
      · simp only [hdw]
        rw [takeWhile_eq_self_of_dropWhile_nil hdw]
        exact h
      · simp only [hdw]
        have hc : c = '\n' := by simpa using dropWhile_head_not hdw
        subst hc
        rw [← hdec2, hdw] at h
        have hsplit : hasSub t (l.takeWhile (· != '\n')) = true ∨
            hasSub t cs = true := by
          refine hasSub_through_sep (d := ['\n']) (by simp) ?_ (by simpa using h)
          intro x hx
          simp only [List.mem_singleton] at hx
          subst hx
          exact hnl
        rcases hsplit with hline | hcs
        · exact hasSub_append_left _ hline
        · exact hasSub_append_right _ (hasSub_cons_of '\n' (ih cs hcs))

theorem linkHere_spec {cs c1 c2 rest : List Char}
    (h : linkHere cs = some (c1, c2, rest)) :
    cs = c1 ++ (']' :: '(' :: (c2 ++ ')' :: rest)) := by
  simp only [linkHere] at h
  split at h
  · exact absurd h (by simp)
  · split at h
    · rename_i r2 heq
      split at h
      · exact absurd h (by simp)
      · split at h
        · rename_i rest' heq2
          simp only [Option.some.injEq, Prod.mk.injEq] at h
          obtain ⟨h1, h2, h3⟩ := h
          subst h1; subst h2; subst h3
          have d1 : cs.takeWhile (· != ']') ++ cs.dropWhile (· != ']') = cs :=
            List.takeWhile_append_dropWhile _ _
          have d2 : r2.takeWhile (· != ')') ++ r2.dropWhile (· != ')') = r2 :=
            List.takeWhile_append_dropWhile _ _
          have h4 : cs = cs.takeWhile (· != ']') ++ (']' :: '(' :: r2) := by
            rw [← heq]; exact d1.symm
          have h5 : r2 = r2.takeWhile (· != ')') ++ (')' :: rest') := by
            rw [← heq2]; exact d2.symm
          rw [← h5]
          exact h4
        · exact absurd h (by simp)
    · exact absurd h (by simp)

theorem findLink_spec :
    ∀ fuel l pre c1 c2 rest,
      findLink fuel l = some (pre, c1, c2, rest) →
      l = pre ++ ('[' :: (c1 ++ (']' :: '(' :: (c2 ++ ')' :: rest)))) := by
  intro fuel
  induction fuel with
  | zero => intro l pre c1 c2 rest h; simp [findLink] at h
  | succ n ih =>
    intro l pre c1 c2 rest h
    cases l with
    | nil => simp [findLink] at h
    | cons c cs =>
      simp only [findLink] at h
      split at h
      · rename_i hc
        subst hc
        rcases hlh : linkHere cs with - | ⟨c1', c2', rest'⟩
        · rw [hlh] at h
          simp only [Option.map_eq_some'] at h
          obtain ⟨⟨pre', d1, d2, d3⟩, hfl, heq⟩ := h
          simp only [Prod.mk.injEq] at heq
          obtain ⟨h1, h2, h3, h4⟩ := heq
          subst h1; subst h2; subst h3; subst h4
          simpa using ih cs pre' d1 d2 d3 hfl
        · rw [hlh] at h
          simp only [Option.some.injEq, Prod.mk.injEq] at h
          obtain ⟨h1, h2, h3, h4⟩ := h
          subst h1; subst h2; subst h3; subst h4
          simpa using linkHere_spec hlh
      · rw [Option.map_eq_some'] at h
        obtain ⟨⟨pre', d1, d2, d3⟩, hfl, heq⟩ := h
        simp only [Prod.mk.injEq] at heq
        obtain ⟨h1, h2, h3, h4⟩ := heq
        subst h1; subst h2; subst h3; subst h4
        simpa using ih cs pre' d1 d2 d3 hfl

theorem replaceLinksGo_noSC :
    ∀ fuel l, hasSub scTok l = false →
      hasSub scTok (replaceLinksGo fuel l) = false := by
  intro fuel
  induction fuel with
  | zero => intro l h; simpa [replaceLinksGo] using h
  | succ n ih =>
    intro l h
    simp only [replaceLinksGo]
    rcases hfl : findLink (l.length + 1) l with - | ⟨pre, c1, c2, rest⟩
    · simp only [hfl]; exact h
    · simp only [hfl]
      simp only [List.append_assoc]
      have hspec := findLink_spec (l.length + 1) l pre c1 c2 rest hfl
      rw [hspec] at h
      have hpre := not_hasSub_of_append_left h
      have h2 := not_hasSub_of_cons (not_hasSub_of_append_right h)
      have hc1 := not_hasSub_of_append_left h2
      have h3 := not_hasSub_of_cons (not_hasSub_of_cons (not_hasSub_of_append_right h2))
      have hc2 := not_hasSub_of_append_left h3
      have hrest := not_hasSub_of_cons (not_hasSub_of_append_right h3)
      refine noSC_chunks hpre (by decide) (by decide) ?_
      refine noSC_chunks hc2 (by decide) (by decide) ?_
      exact noSC_chunks hc1 (by decide) (by decide) (ih rest hrest)

theorem replaceLinksGo_keep (t : List Char) (_htne : t ≠ [])
    (hlb : '[' ∉ t) (hrb : ']' ∉ t) (hlp : '(' ∉ t) (hrp : ')' ∉ t) :
    ∀ fuel l, hasSub t l = true → hasSub t (replaceLinksGo fuel l) = true := by
  intro fuel
  induction fuel with
  | zero => intro l h; simpa [replaceLinksGo] using h
  | succ n ih =>
    intro l h
    simp only [replaceLinksGo]
    rcases hfl : findLink (l.length + 1) l with - | ⟨pre, c1, c2, rest⟩
    · simp only [hfl]; exact h
    · simp only [hfl]
      simp only [List.append_assoc]
      have hspec := findLink_spec (l.length + 1) l pre c1 c2 rest hfl
      rw [hspec] at h
      have hsep1 : hasSub t pre = true ∨
          hasSub t (c1 ++ (']' :: '(' :: (c2 ++ ')' :: rest))) = true := by
        refine hasSub_through_sep (d := ['[']) (by simp) ?_ (by simpa using h)
        intro x hx
        simp only [List.mem_singleton] at hx
        subst hx
        exact hlb
      rcases hsep1 with hpre | hin
      · exact hasSub_append_left _ hpre
      · have hsep2 : hasSub t c1 = true ∨
            hasSub t (c2 ++ ')' :: rest) = true := by
          refine hasSub_through_sep (d := [']', '(']) (by simp) ?_ (by simpa using hin)
          intro x hx
          simp only [List.mem_cons, List.not_mem_nil, or_false] at hx
          rcases hx with rfl | rfl
          · exact hrb
          · exact hlp
        rcases hsep2 with hc1 | hin2
        · exact hasSub_append_right pre (hasSub_append_right linkTagA
            (hasSub_append_right c2 (hasSub_append_right linkTagB
              (hasSub_append_left _ hc1))))
        · have hsep3 : hasSub t c2 = true ∨ hasSub t rest = true := by
            refine hasSub_through_sep (d := [')']) (by simp) ?_ (by simpa using hin2)
            intro x hx
            simp only [List.mem_singleton] at hx
            subst hx
            exact hrp
          rcases hsep3 with hc2 | hrest
          · exact hasSub_append_right pre (hasSub_append_right linkTagA
              (hasSub_append_left _ hc2))
          · exact hasSub_append_right pre (hasSub_append_right linkTagA
              (hasSub_append_right c2 (hasSub_append_right linkTagB
                (hasSub_append_right c1 (hasSub_append_right linkTagC
                  (ih rest hrest))))))

theorem breaksGo_noSC :
    ∀ fuel l, hasSub scTok l = false →
      hasSub scTok (breaksGo fuel l) = false := by
  intro fuel
  induction fuel with
  | zero => intro l h; simpa [breaksGo] using h
  | succ n ih =>
    intro l h
    simp only [breaksGo]
    have hdec2 : l.takeWhile (· != '\n') ++ l.dropWhile (· != '\n') = l :=
      List.takeWhile_append_dropWhile _ _
    rcases hdw : l.dropWhile (· != '\n') with - | ⟨c, cs⟩
    · simp only [hdw]
      rw [takeWhile_eq_self_of_dropWhile_nil hdw]
      exact h
    · simp only [hdw]
      have hc : c = '\n' := by simpa using dropWhile_head_not hdw
      subst hc
      have hpre : hasSub scTok (l.takeWhile (· != '\n')) = false := by
        rw [← hdec2] at h
        exact not_hasSub_of_append_left h
      have hcs : hasSub scTok cs = false := by
        rw [← hdec2, hdw] at h
        exact not_hasSub_of_cons (not_hasSub_of_append_right h)
      split
      · simpa using noSC_chunks hpre nlSafe (by simp) (ih cs hcs)
      · simpa [List.append_assoc] using
          @noSC_chunks (l.takeWhile (· != '\n')) ("<br>".data) (breaksGo n cs)
            hpre (by decide) (by decide) (ih cs hcs)

theorem breaksGo_keep (t : List Char) (hnl : '\n' ∉ t) :
    ∀ fuel l, hasSub t l = true → hasSub t (breaksGo fuel l) = true := by
  intro fuel
  induction fuel with
  | zero => intro l h; simpa [breaksGo] using h
  | succ n ih =>
    intro l h
    simp only [breaksGo]
    have hdec2 : l.takeWhile (· != '\n') ++ l.dropWhile (· != '\n') = l :=
      List.takeWhile_append_dropWhile _ _
    rcases hdw : l.dropWhile (· != '\n') with - | ⟨c, cs⟩
    · simp only [hdw]
      rw [takeWhile_eq_self_of_dropWhile_nil hdw]
      exact h
    · simp only [hdw]
      have hc : c = '\n' := by simpa using dropWhile_head_not hdw
      subst hc
      rw [← hdec2, hdw] at h
      have hsplit : hasSub t (l.takeWhile (· != '\n')) = true ∨
          hasSub t cs = true := by
        refine hasSub_through_sep (d := ['\n']) (by simp) ?_ (by simpa using h)
        intro x hx
        simp only [List.mem_singleton] at hx
        subst hx
        exact hnl
      split
      · rcases hsplit with hpre | hcs
        · exact hasSub_append_left _ hpre
        · exact hasSub_append_right _ (hasSub_cons_of '\n' (ih cs hcs))
      · rcases hsplit with hpre | hcs
        · exact hasSub_append_left _ (hasSub_append_left _ hpre)
        · exact hasSub_append_right _ (ih cs hcs)

theorem listGo_noSC (m : List Char → Option (List Char × List Char))
    (hdecomp : ∀ l cap r4, m l = some (cap, r4) → ∃ d, l = d ++ (cap ++ r4))
    (hr4nl : ∀ l cap r4, m l = some (cap, r4) → r4 = [] ∨ ∃ cs, r4 = '\n' :: cs) :
    ∀ fuel l, hasSub scTok l = false →
      hasSub scTok (listGo m fuel l) = false := by
  intro fuel
  induction fuel with
  | zero => intro l h; simpa [listGo] using h
  | succ n ih =>
    intro l h
    simp only [listGo]
    rcases hm : m l with - | ⟨cap, r4⟩
    · simp only [hm]
      have hdec2 : l.takeWhile (· != '\n') ++ l.dropWhile (· != '\n') = l :=
        List.takeWhile_append_dropWhile _ _
      rcases hdw : l.dropWhile (· != '\n') with - | ⟨c, cs⟩
      · simp only [hdw]
        rw [takeWhile_eq_self_of_dropWhile_nil hdw]
        exact h
      · simp only [hdw]
        have hc : c = '\n' := by simpa using dropWhile_head_not hdw
        subst hc
        have hline : hasSub scTok (l.takeWhile (· != '\n')) = false := by
          rw [← hdec2] at h
          exact not_hasSub_of_append_left h
        have hcs : hasSub scTok cs = false := by
          rw [← hdec2, hdw] at h
          exact not_hasSub_of_cons (not_hasSub_of_append_right h)
        simpa using noSC_chunks hline nlSafe (by simp) (ih cs hcs)
    · simp only [hm]
      obtain ⟨d, hd⟩ := hdecomp l cap r4 hm
      rw [hd] at h
      have hin := not_hasSub_of_append_right h
      have hcap := not_hasSub_of_append_left hin
      have hr4 := not_hasSub_of_append_right hin
      simp only [List.append_assoc]
      refine noSC_tag_pre (by decide) (by decide) ?_
      refine noSC_chunks hcap (by decide) (by decide) ?_
      rcases hr4nl l cap r4 hm with rfl | ⟨cs, rfl⟩
      · exact noSC_of_nil
      · have hcs : hasSub scTok cs = false := not_hasSub_of_cons hr4
        simpa using noSC_tag_pre nlSafe (by simp) (ih cs hcs)

theorem listGo_keep (m : List Char → Option (List Char × List Char))
    (t : List Char) (htne : t ≠ []) (hnl : '\n' ∉ t)
    (hdecomp : ∀ l cap r4, m l = some (cap, r4) →
      ∃ d, l = d ++ (cap ++ r4) ∧ d ≠ [] ∧ ∀ c ∈ d, c ∉ t)
    (hr4nl : ∀ l cap r4, m l = some (cap, r4) → r4 = [] ∨ ∃ cs, r4 = '\n' :: cs) :
    ∀ fuel l, hasSub t l = true → hasSub t (listGo m fuel l) = true := by
  intro fuel
  induction fuel with
  | zero => intro l h; simpa [listGo] using h
  | succ n ih =>
    intro l h
    simp only [listGo]
    rcases hm : m l with - | ⟨cap, r4⟩
    · simp only [hm]
      have hdec2 : l.takeWhile (· != '\n') ++ l.dropWhile (· != '\n') = l :=
        List.takeWhile_append_dropWhile _ _
      rcases hdw : l.dropWhile (· != '\n') with - | ⟨c, cs⟩
      · simp only [hdw]
        rw [takeWhile_eq_self_of_dropWhile_nil hdw]
        exact h
      · simp only [hdw]
        have hc : c = '\n' := by simpa using dropWhile_head_not hdw
        subst hc
        rw [← hdec2, hdw] at h
        have hsplit : hasSub t (l.takeWhile (· != '\n')) = true ∨
            hasSub t cs = true := by
          refine hasSub_through_sep (d := ['\n']) (by simp) ?_ (by simpa using h)
          intro x hx
          simp only [List.mem_singleton] at hx
          subst hx
          exact hnl
        rcases hsplit with hline | hcs
        · exact hasSub_append_left _ hline
        · exact hasSub_append_right _ (hasSub_cons_of '\n' (ih cs hcs))
    · simp only [hm]
      obtain ⟨d, hd, hdne, hdchars⟩ := hdecomp l cap r4 hm
      rw [hd] at h
      have hin : hasSub t (cap ++ r4) = true := hasSub_behind_sep hdne hdchars htne h
      simp only [List.append_assoc]
      have hplace : hasSub t cap = true ∨ hasSub t r4 = true := by
        rcases hr4nl l cap r4 hm with rfl | ⟨cs, rfl⟩
        · exact Or.inl (by simpa using hin)
        · refine (hasSub_through_sep (d := ['\n']) (by simp) ?_ (by simpa using hin)).imp
            id (fun hcs => hasSub_cons_of '\n' hcs)
          intro x hx
          simp only [List.mem_singleton] at hx
          subst hx
          exact hnl
      rcases hplace with hcap | hr4
      · exact hasSub_append_right _ (hasSub_append_left _ hcap)
      · rcases hr4nl l cap r4 hm with rfl | ⟨cs, rfl⟩
        · exact absurd hr4 (by simp [hasSub_nil_false htne])
        · have hcs : hasSub t cs = true := by
            refine hasSub_behind_sep (d := ['\n']) (by simp) ?_ htne (by simpa using hr4)
            intro x hx
            simp only [List.mem_singleton] at hx
            subst hx
            exact hnl
          exact hasSub_append_right _ (hasSub_append_right _
            (hasSub_append_right _ (hasSub_cons_of '\n' (ih cs hcs))))

theorem bulletMatch_spec {l cap r4 : List Char}
    (h : bulletMatch l = some (cap, r4)) :
    (∃ d, l = d ++ (cap ++ r4) ∧ d ≠ [] ∧
      ∀ c ∈ d, jsWhitespace c = true ∨ isBullet c = true) ∧
    (r4 = [] ∨ ∃ cs, r4 = '\n' :: cs) := by
  simp only [bulletMatch] at h
  split at h
  · rename_i b r2 heqd
    split at h
    · rename_i hb
      split at h
      · exact absurd h (by simp)
      · simp only [Option.some.injEq, Prod.mk.injEq] at h
        obtain ⟨h1, h2⟩ := h
        subst h1; subst h2
        constructor
        · refine ⟨l.takeWhile jsWhitespace ++ (b :: r2.takeWhile jsWhitespace),
            ?_, by simp, ?_⟩
          · have d1 : l.takeWhile jsWhitespace ++ l.dropWhile jsWhitespace = l :=
              List.takeWhile_append_dropWhile _ _
            have d2 : r2.takeWhile jsWhitespace ++ r2.dropWhile jsWhitespace = r2 :=
              List.takeWhile_append_dropWhile _ _
            have d3 : (r2.dropWhile jsWhitespace).takeWhile (· != '\n') ++
                (r2.dropWhile jsWhitespace).dropWhile (· != '\n') =
                r2.dropWhile jsWhitespace :=
              List.takeWhile_append_dropWhile _ _
            rw [d3]
            rw [show (l.takeWhile jsWhitespace ++ (b :: r2.takeWhile jsWhitespace)) ++
                r2.dropWhile jsWhitespace =
                l.takeWhile jsWhitespace ++ (b :: (r2.takeWhile jsWhitespace ++
                  r2.dropWhile jsWhitespace)) from by simp]
            rw [d2, ← heqd, d1]
          · intro x hx
            simp only [List.mem_append, List.mem_cons] at hx
            rcases hx with hx | rfl | hx
            · exact Or.inl (List.mem_takeWhile_imp hx)
            · exact Or.inr hb
            · exact Or.inl (List.mem_takeWhile_imp hx)
        · rcases hdw : (r2.dropWhile jsWhitespace).dropWhile (· != '\n') with - | ⟨c, cs⟩
          · exact Or.inl rfl
          · have hc : c = '\n' := by simpa using dropWhile_head_not hdw
            subst hc
            exact Or.inr ⟨cs, rfl⟩
    · exact absurd h (by simp)
  · exact absurd h (by simp)

theorem numMatch_spec {l cap r4 : List Char}
    (h : numMatch l = some (cap, r4)) :
    (∃ d, l = d ++ (cap ++ r4) ∧ d ≠ [] ∧
      ∀ c ∈ d, jsWhitespace c = true ∨ c.isDigit = true ∨ c = '.') ∧
    (r4 = [] ∨ ∃ cs, r4 = '\n' :: cs) := by
  simp only [numMatch] at h
  split at h
  · exact absurd h (by simp)
  · split at h
    · rename_i r2 heqd
      split at h
      · exact absurd h (by simp)
      · simp only [Option.some.injEq, Prod.mk.injEq] at h
        obtain ⟨h1, h2⟩ := h
        subst h1; subst h2
        constructor
        · refine ⟨l.takeWhile jsWhitespace ++
            ((l.dropWhile jsWhitespace).takeWhile Char.isDigit ++
              ('.' :: r2.takeWhile jsWhitespace)), ?_, by simp, ?_⟩
          · have d1 : l.takeWhile jsWhitespace ++ l.dropWhile jsWhitespace = l :=
              List.takeWhile_append_dropWhile _ _
            have d2 : (l.dropWhile jsWhitespace).takeWhile Char.isDigit ++
                (l.dropWhile jsWhitespace).dropWhile Char.isDigit =
                l.dropWhile jsWhitespace :=
              List.takeWhile_append_dropWhile _ _
            have d3 : r2.takeWhile jsWhitespace ++ r2.dropWhile jsWhitespace = r2 :=
              List.takeWhile_append_dropWhile _ _
            have d4 : (r2.dropWhile jsWhitespace).takeWhile (· != '\n') ++
                (r2.dropWhile jsWhitespace).dropWhile (· != '\n') =
                r2.dropWhile jsWhitespace :=
              List.takeWhile_append_dropWhile _ _
            rw [d4]
            rw [show (l.takeWhile jsWhitespace ++
                ((l.dropWhile jsWhitespace).takeWhile Char.isDigit ++
                  ('.' :: r2.takeWhile jsWhitespace))) ++ r2.dropWhile jsWhitespace =
                l.takeWhile jsWhitespace ++
                ((l.dropWhile jsWhitespace).takeWhile Char.isDigit ++
                  ('.' :: (r2.takeWhile jsWhitespace ++ r2.dropWhile jsWhitespace)))
                from by simp]
            rw [d3, ← heqd, d2, d1]
          · intro x hx
            simp only [List.mem_append, List.mem_cons] at hx
            rcases hx with hx | hx | rfl | hx
            · exact Or.inl (List.mem_takeWhile_imp hx)
            · exact Or.inr (Or.inl (List.mem_takeWhile_imp hx))
            · exact Or.inr (Or.inr rfl)
            · exact Or.inl (List.mem_takeWhile_imp hx)
        · rcases hdw : (r2.dropWhile jsWhitespace).dropWhile (· != '\n') with - | ⟨c, cs⟩
          · exact Or.inl rfl
          · have hc : c = '\n' := by simpa using dropWhile_head_not hdw
            subst hc
            exact Or.inr ⟨cs, rfl⟩
    · exact absurd h (by simp)

theorem firstOcc_spec {pat : List Char} :
    ∀ {l : List Char} {i : Nat}, firstOcc pat l = some i →
      ∃ x y, l = x ++ (pat ++ y) ∧ x.length = i := by
  intro l
  induction l with
  | nil =>
    intro i h
    simp only [firstOcc] at h
    split at h
    · rename_i hb
      injection h with h1
      subst h1
      rcases (begins_iff pat []).mp hb with ⟨r, hr⟩
      exact ⟨[], r, by simpa using hr, rfl⟩
    · exact absurd h (by simp)
  | cons c cs ih =>
    intro i h
    simp only [firstOcc] at h
    split at h
    · rename_i hb
      injection h with h1
      subst h1
      rcases (begins_iff pat (c :: cs)).mp hb with ⟨r, hr⟩
      exact ⟨[], r, by simpa using hr, rfl⟩
    · rw [Option.map_eq_some'] at h
      obtain ⟨j, hj, hji⟩ := h
      obtain ⟨x, y, hxy, hlen⟩ := ih hj
      exact ⟨c :: x, y, by simp [hxy], by simp [hlen, hji]⟩

theorem lastOcc_spec {pat : List Char} :
    ∀ {l : List Char} {j : Nat}, lastOcc pat l = some j →
      ∃ u v, l = u ++ (pat ++ v) ∧ u.length = j := by
  intro l
  induction l with
  | nil =>
    intro j h
    simp only [lastOcc] at h
    split at h
    · rename_i hb
      injection h with h1
      subst h1
      rcases (begins_iff pat []).mp hb with ⟨r, hr⟩
      exact ⟨[], r, by simpa using hr, rfl⟩
    · exact absurd h (by simp)
  | cons c cs ih =>
    intro j h
    simp only [lastOcc] at h
    rcases hlo : lastOcc pat cs with - | ⟨j'⟩
    · rw [hlo] at h
      by_cases hb : begins pat (c :: cs) = true
      · rw [if_pos hb] at h
        injection h with h1
        subst h1
        rcases (begins_iff pat (c :: cs)).mp hb with ⟨r, hr⟩
        exact ⟨[], r, by simpa using hr, rfl⟩
      · rw [if_neg hb] at h
        exact absurd h (by simp)
    · rw [hlo] at h
      injection h with h1
      obtain ⟨u, v, huv, hlen⟩ := ih hlo
      exact ⟨c :: u, v, by simp [huv], by simp [hlen, h1]⟩

theorem wrapItems_factor {l : List Char} {i j : Nat} (hij : i + 4 ≤ j) :
    l.take i ++ ((l.drop i).take (j + 5 - i) ++ l.drop (j + 5)) = l := by
  have h1 : i + (j + 5 - i) = j + 5 := by omega
  calc l.take i ++ ((l.drop i).take (j + 5 - i) ++ l.drop (j + 5))
      = (l.take i ++ (l.drop i).take (j + 5 - i)) ++ l.drop (j + 5) := by
        simp [List.append_assoc]
    _ = l.take (i + (j + 5 - i)) ++ l.drop (j + 5) := by rw [← List.take_add]
    _ = l.take (j + 5) ++ l.drop (j + 5) := by rw [h1]
    _ = l := List.take_append_drop _ _

/-- Wrapping the first-to-last `<li>…</li>` region preserves `<sc`-freeness. -/
theorem wrapItems_noSC (openT closeT : List Char)
    (hO : scSafe openT = true) (hOne : openT ≠ [])
    (hC : scSafe closeT = true) (hCne : closeT ≠ []) (l : List Char)
    (h : hasSub scTok l = false) :
    hasSub scTok (wrapItems openT closeT l) = false := by
  simp only [wrapItems]
  rcases hf : firstOcc "<li>".data l with - | ⟨i⟩
  · simp only [hf]; exact h
  · simp only [hf]
    rcases hlo : lastOcc "</li>".data l with - | ⟨j⟩
    · simp only [hlo]; exact h
    · simp only [hlo]
      split
      · rename_i hij
        have h' : hasSub scTok
            (l.take i ++ ((l.drop i).take (j + 5 - i) ++ l.drop (j + 5))) = false := by
          rw [wrapItems_factor hij]; exact h
        have hA := not_hasSub_of_append_left h'
        have hMB := not_hasSub_of_append_right h'
        have hM := not_hasSub_of_append_left hMB
        have hB := not_hasSub_of_append_right hMB
        simp only [List.append_assoc]
        exact noSC_chunks hA hO hOne (noSC_chunks hM hC hCne hB)
      · exact h

/-- Wrapping preserves every occurrence of a token free of `<` and `>`. -/
theorem wrapItems_keep (openT closeT t : List Char)
    (hlt : '<' ∉ t) (hgt : '>' ∉ t) (l : List Char)
    (h : hasSub t l = true) :
    hasSub t (wrapItems openT closeT l) = true := by
  simp only [wrapItems]
  rcases hf : firstOcc "<li>".data l with - | ⟨i⟩
  · simp only [hf]; exact h
  · simp only [hf]
    rcases hlo : lastOcc "</li>".data l with - | ⟨j⟩
    · simp only [hlo]; exact h
    · simp only [hlo]
      split
      · rename_i hij
        obtain ⟨x, y, hxy, hxlen⟩ := firstOcc_spec hf
        obtain ⟨u, v, huv, hulen⟩ := lastOcc_spec hlo
        -- the wrapped region starts with `<li>`
        have hdropf : l.drop i = "<li>".data ++ y := by
          have hd := List.drop_left x ("<li>".data ++ y)
          rw [hxlen] at hd
          rw [hxy, hd]
        have hMhead : (l.drop i).take (j + 5 - i) =
            '<' :: ("li>".data ++ y.take (j + 5 - i - 4)) := by
          rw [hdropf, List.take_append_eq_append_take]
          rw [List.take_of_length_le (by simp; omega)]
          simp
        -- the wrapped region ends with `</li>`
        have hdropl : l.drop i = u.drop i ++ ("</li>".data ++ v) := by
          rw [huv]
          exact List.drop_append_of_le_length (by omega)
        have hMlast : (l.drop i).take (j + 5 - i) =
            u.drop i ++ "</li>".data := by
          rw [hdropl, List.take_append_eq_append_take]
          rw [List.take_of_length_le (by rw [List.length_drop, hulen]; omega)]
          rw [show j + 5 - i - (u.drop i).length = 5 by
            rw [List.length_drop, hulen]; omega]
          rw [List.take_left' (by rfl)]
        have hgl : ((l.drop i).take (j + 5 - i)).getLast? = some '>' := by
          rw [hMlast]
          rw [List.getLast?_append_of_ne_nil _ (by simp)]
          rfl
        have h' : hasSub t
            (l.take i ++ ((l.drop i).take (j + 5 - i) ++ l.drop (j + 5))) = true := by
          rw [wrapItems_factor hij]; exact h
        have hcase := hasSub_through_mid (by rw [hMhead]; simp)
          (fun c cs hc => by
            rw [hMhead] at hc
            injection hc with h1 h2
            exact h1 ▸ hlt)
          (fun c hc => by
            rw [hgl] at hc
            injection hc with h1
            exact h1 ▸ hgt) h'
        simp only [List.append_assoc]
        rcases hcase with hA | hM | hB
        · exact hasSub_append_left _ hA
        · exact hasSub_append_right _ (hasSub_append_right openT
            (hasSub_append_left _ hM))
        · exact hasSub_append_right _ (hasSub_append_right openT
            (hasSub_append_right _ (hasSub_append_right closeT hB)))
      · exact h

theorem hasSub_of_hasSub_append {p q l : List Char}
    (h : hasSub (p ++ q) l = true) : hasSub p l = true := by
  rcases (hasSub_iff _ _).mp h with ⟨x, y, rfl⟩
  exact (hasSub_iff _ _).mpr ⟨x, q ++ y, by simp⟩

theorem t2_no_ws : ∀ x ∈ "&lt;script&gt;".data, jsWhitespace x = false := by decide

theorem t2_no_digit : ∀ x ∈ "&lt;script&gt;".data, x.isDigit = false := by decide

theorem t2_no_bullet : ∀ x ∈ "&lt;script&gt;".data, isBullet x = false := by decide

theorem t2_no_dot : ∀ x ∈ "&lt;script&gt;".data, x ≠ '.' := by decide

/-- The rendered output of the markdown pipeline never contains `<sc`. -/
theorem renderMarkdownL_noSC (l : List Char) :
    hasSub scTok (renderMarkdownL l) = false := by
  simp only [renderMarkdownL, runDelim]
  apply wrapItems_noSC _ _ (by decide) (by decide) (by decide) (by decide)
  apply listGo_noSC numMatch
    (fun l cap r4 hm => ((numMatch_spec hm).1).imp fun d hd => hd.1)
    (fun l cap r4 hm => (numMatch_spec hm).2)
  apply wrapItems_noSC _ _ (by decide) (by decide) (by decide) (by decide)
  apply listGo_noSC bulletMatch
    (fun l cap r4 hm => ((bulletMatch_spec hm).1).imp fun d hd => hd.1)
    (fun l cap r4 hm => (bulletMatch_spec hm).2)
  apply breaksGo_noSC
  apply replaceLinksGo_noSC
  apply headerGo_noSC _ _ _ (by decide) (by decide) (by decide) (by decide)
  apply headerGo_noSC _ _ _ (by decide) (by decide) (by decide) (by decide)
  apply headerGo_noSC _ _ _ (by decide) (by decide) (by decide) (by decide)
  apply replaceDelim_noSC _ (by decide) (by decide) (by decide) (by decide)
  apply replaceDelim_noSC _ (by decide) (by decide) (by decide) (by decide)
  apply replaceDelim_noSC _ (by decide) (by decide) (by decide) (by decide)
  apply replaceDelim_noSC _ (by decide) (by decide) (by decide) (by decide)
  apply replaceDelim_noSC _ (by decide) (by decide) (by decide) (by decide)
  apply replaceDelim_noSC _ (by decide) (by decide) (by decide) (by decide)
  exact escapeHtml_noSC l

/-- The rendered output never contains a raw `<script>` tag. -/
theorem renderMarkdownL_no_script (l : List Char) :
    hasSub "<script>".data (renderMarkdownL l) = false := by
  cases hc : hasSub "<script>".data (renderMarkdownL l)
  · rfl
  · exfalso
    have hsplit : "<script>".data = scTok ++ "ript>".data := by decide
    rw [hsplit] at hc
    exact absurd (renderMarkdownL_noSC l)
      (by simp [hasSub_of_hasSub_append hc])

/-- Every `<script>` occurrence of the input survives, escaped, in the
rendered output. -/
theorem renderMarkdownL_keeps_script {l : List Char}
    (h : hasSub "<script>".data l = true) :
    hasSub "&lt;script&gt;".data (renderMarkdownL l) = true := by
  simp only [renderMarkdownL, runDelim]
  apply wrapItems_keep _ _ _ (by decide) (by decide)
  apply listGo_keep numMatch _ (by decide) (by decide)
    (fun l cap r4 hm => by
      obtain ⟨⟨d, hd, hne, hch⟩, -⟩ := numMatch_spec hm
      refine ⟨d, hd, hne, fun x hx hmem => ?_⟩
      rcases hch x hx with hws | hdig | rfl
      · exact absurd (t2_no_ws x hmem) (by simp [hws])
      · exact absurd (t2_no_digit x hmem) (by simp [hdig])
      · exact absurd (t2_no_dot '.' hmem) (by simp))
    (fun l cap r4 hm => (numMatch_spec hm).2)
  apply wrapItems_keep _ _ _ (by decide) (by decide)
  apply listGo_keep bulletMatch _ (by decide) (by decide)
    (fun l cap r4 hm => by
      obtain ⟨⟨d, hd, hne, hch⟩, -⟩ := bulletMatch_spec hm
      refine ⟨d, hd, hne, fun x hx hmem => ?_⟩
      rcases hch x hx with hws | hbul
      · exact absurd (t2_no_ws x hmem) (by simp [hws])
      · exact absurd (t2_no_bullet x hmem) (by simp [hbul]))
    (fun l cap r4 hm => (bulletMatch_spec hm).2)
  apply breaksGo_keep _ (by decide)
  apply replaceLinksGo_keep _ (by decide) (by decide) (by decide) (by decide) (by decide)
  apply headerGo_keep _ _ _ _ (by decide) (by decide) (by decide) (by decide)
  apply headerGo_keep _ _ _ _ (by decide) (by decide) (by decide) (by decide)
  apply headerGo_keep _ _ _ _ (by decide) (by decide) (by decide) (by decide)
  apply replaceDelim_keep _ _ (by decide) (by decide) (by decide) (by decide)
  apply replaceDelim_keep _ _ (by decide) (by decide) (by decide) (by decide)
  apply replaceDelim_keep _ _ (by decide) (by decide) (by decide) (by decide)
  apply replaceDelim_keep _ _ (by decide) (by decide) (by decide) (by decide)
  apply replaceDelim_keep _ _ (by decide) (by decide) (by decide) (by decide)
  apply replaceDelim_keep _ _ (by decide) (by decide) (by decide) (by decide)
  exact escapeHtml_keeps_script h

theorem findRule_mem {message : String} :
    ∀ {rules : List ResponseRule} {r : ResponseRule},
      findRule message rules = some r → r ∈ rules := by
  intro rules
  induction rules with
  | nil => intro r h; simp [findRule] at h
  | cons x xs ih =>
    intro r h
    simp only [findRule] at h
    split at h
    · injection h with h1
      subst h1
      simp
    · simp [ih h]

theorem pickReply_mem {replies : List ResponseResult} (hne : replies ≠ [])
    (choice : Nat) : pickReply replies choice ∈ replies := by
  have hpos : 0 < replies.length := List.length_pos.mpr hne
  have hlt : choice % replies.length < replies.length := Nat.mod_lt _ hpos
  rw [pickReply, List.getD_eq_getElem _ _ hlt]
  exact List.getElem_mem hlt

theorem animValid_mem {o : Option String} {a : String}
    (hv : animValid o = true) (ha : o = some a) : a ∈ validAnimations := by
  subst ha
  exact List.mem_of_elem_eq_true (by simpa [animValid] using hv)

theorem addFinishedListener_idem (ls : List String) (id : String) :
    addFinishedListener (addFinishedListener ls id) id =
      addFinishedListener ls id := by
  by_cases h : id ∈ ls
  · simp [addFinishedListener, h]
  · simp [addFinishedListener, h]

/-- C1: the dispatcher `generateRobotResponse` never raises to its caller:
for every user message and selected strategy it returns an `ok` result, and
whenever the selected strategy throws or rejects it returns the result of
the deterministic pattern strategy for the same message. -/
theorem c1_dispatcher_never_raises (p : Provider)
    (openaiRes ollamaRes webllmRes : Except String ResponseResult)
    (userMessage : String) (choice : Nat) :
    (∃ r, generateRobotResponse p openaiRes ollamaRes webllmRes userMessage choice =
      Except.ok r) ∧
    (∀ e, selectStrategy p openaiRes ollamaRes webllmRes userMessage choice =
        Except.error e →
      generateRobotResponse p openaiRes ollamaRes webllmRes userMessage choice =
        Except.ok (generatePatternResponse userMessage choice)) := by
  cases hs : selectStrategy p openaiRes ollamaRes webllmRes userMessage choice with
  | ok r =>
    constructor
    · exact ⟨r, by simp [generateRobotResponse, tryCatchE, hs]⟩
    · intro e he
      exact absurd he (by simp)
  | error e =>
    constructor
    · exact ⟨generatePatternResponse userMessage choice,
        by simp [generateRobotResponse, tryCatchE, hs]⟩
    · intro e' he'
      simp [generateRobotResponse, tryCatchE, hs]

/-- Witness for C1: with the OpenAI strategy rejecting, the dispatcher
returns the pattern reply for the same message. -/
theorem c1_witness :
    selectStrategy Provider.openai (Except.error "OpenAI API error: 500")
        (Except.ok ⟨"", none, none⟩) (Except.ok ⟨"", none, none⟩) "hello robot" 0 =
      Except.error "OpenAI API error: 500" ∧
    generateRobotResponse Provider.openai (Except.error "OpenAI API error: 500")
        (Except.ok ⟨"", none, none⟩) (Except.ok ⟨"", none, none⟩) "hello robot" 0 =
      Except.ok (generatePatternResponse "hello robot" 0) :=
  ⟨rfl, (c1_dispatcher_never_raises Provider.openai
      (Except.error "OpenAI API error: 500") (Except.ok ⟨"", none, none⟩)
      (Except.ok ⟨"", none, none⟩) "hello robot" 0).2
    "OpenAI API error: 500" rfl⟩

/-- C2 counterexample: triggering emote `Wave` and then `Yes` through the
chat path (`triggerRobotAction`) before the first restoration fires leaves
TWO pending restorations, not one — each call schedules a fresh
`setTimeout` and nothing is cancelled, refuting "exactly one pending
restoration, never two". -/
theorem c2_counterexample :
    (triggerRobotAction "Yes" 100
        (triggerRobotAction "Wave" 0 robotSt0)).pendingRestores = [2000, 2100] ∧
    ¬ (triggerRobotAction "Yes" 100
        (triggerRobotAction "Wave" 0 robotSt0)).pendingRestores.length = 1 := by
  decide

/-- C2 (amended): each chat emote request schedules its own deferred
restoration, so X followed by Y leaves two pending restorations — one per
request, restoration running once per emote request; only the GUI emote
callbacks keep at most one `finished` watcher, because three.js deduplicates
the shared `restoreState` listener. -/
theorem c2_amended (st : RobotState) (x y : String) (t1 t2 : Nat)
    (hx : x ∈ st.known) (hxe : x ∈ st.emotes)
    (hy : y ∈ st.known) (hye : y ∈ st.emotes) :
    (triggerRobotAction y t2 (triggerRobotAction x t1 st)).pendingRestores =
      st.pendingRestores ++ [t1 + 2000, t2 + 2000] ∧
    (emoteCallback y (emoteCallback x st).1).1.finishedListeners =
      addFinishedListener st.finishedListeners "restoreState" := by
  constructor
  · simp [triggerRobotAction, fadeCore, hx, hxe, hy, hye]
  · simp [emoteCallback, fadeCore, addFinishedListener_idem]

/-- Witness for C2 (amended) at the concrete initial state. -/
theorem c2_amended_witness :
    (triggerRobotAction "Yes" 100
        (triggerRobotAction "Wave" 0 robotSt0)).pendingRestores =
      robotSt0.pendingRestores ++ [0 + 2000, 100 + 2000] ∧
    (emoteCallback "Yes" (emoteCallback "Wave" robotSt0).1).1.finishedListeners =
      addFinishedListener robotSt0.finishedListeners "restoreState" :=
  c2_amended robotSt0 "Wave" "Yes" 0 100 (by decide) (by decide)
    (by decide) (by decide)

/-- C3: the pattern strategy scans its rule list in order and returns on the
first rule whose trigger occurs in the lowercased input; every message whose
lowercasing contains "hello" yields one of the three exact greeting replies,
whose animation is `Wave` or `ThumbsUp` (and the strategy is a total
function — it never throws). -/
theorem c3_hello_greeting (msg : String) (choice : Nat)
    (h : strIncludes (lowerStr msg) "hello" = true) :
    generatePatternResponse msg choice ∈ greetingReplies ∧
    ((generatePatternResponse msg choice).animation = some "Wave" ∨
      (generatePatternResponse msg choice).animation = some "ThumbsUp") := by
  have hfind : findRule (lowerStr msg) responseRules =
      some ⟨["hello", "hi", "hey", "greetings"], greetingReplies⟩ := by
    simp only [responseRules, findRule, greetingReplies]
    rw [if_pos (by simp [matchesRule, h])]
  have hval : generatePatternResponse msg choice = pickReply greetingReplies choice := by
    simp only [generatePatternResponse]
    rw [hfind]
  have hmem : generatePatternResponse msg choice ∈ greetingReplies := by
    rw [hval]
    exact pickReply_mem (by simp [greetingReplies]) choice
  refine ⟨hmem, ?_⟩
  have hmem' := hmem
  simp only [greetingReplies, List.mem_cons, List.not_mem_nil, or_false] at hmem'
  rcases hmem' with he | he | he <;> rw [he] <;> simp

/-- Witness for C3 at a concrete greeting. -/
theorem c3_witness :
    strIncludes (lowerStr "Hello robot!") "hello" = true ∧
    generatePatternResponse "Hello robot!" 2 ∈ greetingReplies ∧
    ((generatePatternResponse "Hello robot!" 2).animation = some "Wave" ∨
      (generatePatternResponse "Hello robot!" 2).animation = some "ThumbsUp") :=
  ⟨by decide, (c3_hello_greeting "Hello robot!" 2 (by decide)).1,
    (c3_hello_greeting "Hello robot!" 2 (by decide)).2⟩

/-- C4 counterexample: `fadeToAction` itself, invoked with an action name
missing from the `actions` map, is not a no-op that returns — it dereferences
the `undefined` handle and throws (modelled as `none`), refuting the claim
for "the underlying fadeToAction". -/
theorem c4_counterexample : fadeToAction "Fly" 5 robotSt0 = none := by decide

/-- C4 (amended): an unknown action name requested through
`triggerRobotAction` (the chat entry point, which guards with
`actions[actionName]`) is a no-op on the coordinator state and cannot throw;
`fadeToAction` called directly with the unknown name throws instead. -/
theorem c4_amended (name : String) (now tenths : Nat) (st : RobotState)
    (h : name ∉ st.known) :
    triggerRobotAction name now st = st ∧ fadeToAction name tenths st = none := by
  constructor
  · simp [triggerRobotAction, h]
  · simp [fadeToAction, h]

/-- Witness for C4 (amended) at the concrete state. -/
theorem c4_amended_witness :
    triggerRobotAction "Fly" 0 robotSt0 = robotSt0 ∧
    fadeToAction "Fly" 5 robotSt0 = none :=
  c4_amended "Fly" 0 5 robotSt0 (by decide)

/-- C5 counterexample: setting expression `Angry` and then setting it again
1000 ms later leaves TWO pending resets — `(3000, 0)` from the first call
and `(4000, 0)` from the second. Nothing is cancelled: a reset fires at the
FIRST call's time plus the timeout, refuting "exactly one reset, at the time
of the second call plus the timeout". -/
theorem c5_counterexample :
    (triggerRobotExpression "Angry" 50 1000
        (triggerRobotExpression "Angry" 100 0 exprSt0)).pendingResets =
      [(3000, 0), (4000, 0)] ∧
    ¬ (triggerRobotExpression "Angry" 50 1000
        (triggerRobotExpression "Angry" 100 0 exprSt0)).pendingResets.length = 1 := by
  decide

/-- C5 (amended): every `triggerRobotExpression` call on a known expression
schedules its own reset-to-zero at its call time plus 3000 ms; a second call
before the timeout does not cancel the first, so both resets remain pending
and both fire. -/
theorem c5_amended (st : ExpressionState) (name : String) (v1 v2 : Int)
    (t1 t2 i : Nat) (h : st.expressions.findIdx? (· == name) = some i) :
    (triggerRobotExpression name v2 t2
        (triggerRobotExpression name v1 t1 st)).pendingResets =
      st.pendingResets ++ [(t1 + 3000, i), (t2 + 3000, i)] := by
  simp [triggerRobotExpression, h]

/-- Witness for C5 (amended) at the concrete state. -/
theorem c5_amended_witness :
    (triggerRobotExpression "Angry" 50 1000
        (triggerRobotExpression "Angry" 100 0 exprSt0)).pendingResets =
      exprSt0.pendingResets ++ [(0 + 3000, 0), (1000 + 3000, 0)] :=
  c5_amended exprSt0 "Angry" 100 50 0 1000 0 (by decide)

/-- C6 counterexample: `fadeToAction` with `newState` equal to the current
state is NOT a no-op — the active handle is still reset, re-weighted, faded
in and played (restarted); only the fade-out of the previous handle is
skipped. -/
theorem c6_counterexample :
    robotSt0.active = "Idle" ∧
    AnimEvent.play "Idle" ∈ (fadeCore "Idle" 5 robotSt0).2 ∧
    (fadeCore "Idle" 5 robotSt0).2 ≠ [] := by
  decide

/-- C6 (amended): `fadeToAction` records `name` as current in all cases;
when `name` equals the current state it skips only the fade-out and still
resets, re-weights, fades in and plays the handle; when `name` differs it
additionally fades out the previous handle over the blend duration. -/
theorem c6_amended (name : String) (tenths : Nat) (st : RobotState) :
    (fadeCore name tenths st).1.active = name ∧
    (name = st.active →
      (fadeCore name tenths st).2 =
        [AnimEvent.reset name, AnimEvent.setTimeScale name 1,
         AnimEvent.setWeight name 1, AnimEvent.fadeIn name tenths,
         AnimEvent.play name]) ∧
    (name ≠ st.active →
      (fadeCore name tenths st).2 =
        AnimEvent.fadeOut st.active tenths ::
          [AnimEvent.reset name, AnimEvent.setTimeScale name 1,
           AnimEvent.setWeight name 1, AnimEvent.fadeIn name tenths,
           AnimEvent.play name]) := by
  refine ⟨rfl, ?_, ?_⟩
  · intro he
    simp [fadeCore, he]
  · intro hne
    have h2 : st.active ≠ name := fun hh => hne hh.symm
    simp [fadeCore, h2]

/-- Witness for C6 (amended): a same-state call and a different-state call. -/
theorem c6_amended_witness :
    ((fadeCore "Idle" 5 robotSt0).1.active = "Idle" ∧
      (fadeCore "Idle" 5 robotSt0).2 =
        [AnimEvent.reset "Idle", AnimEvent.setTimeScale "Idle" 1,
         AnimEvent.setWeight "Idle" 1, AnimEvent.fadeIn "Idle" 5,
         AnimEvent.play "Idle"]) ∧
    (fadeCore "Walking" 5 robotSt0).2 =
      AnimEvent.fadeOut "Idle" 5 ::
        [AnimEvent.reset "Walking", AnimEvent.setTimeScale "Walking" 1,
         AnimEvent.setWeight "Walking" 1, AnimEvent.fadeIn "Walking" 5,
         AnimEvent.play "Walking"] :=
  ⟨⟨(c6_amended "Idle" 5 robotSt0).1,
      (c6_amended "Idle" 5 robotSt0).2.1 (by decide)⟩,
    (c6_amended "Walking" 5 robotSt0).2.2 (by decide)⟩

/-- C7: after every completed exchange the conversation context has at most
20 turns; the kept turns are a suffix of the context-plus-new-turns sequence
(oldest dropped from the front, insertion order preserved), and once the cap
is exceeded exactly the most recent 20 are kept. -/
theorem c7_context_cap (ctx : List ConversationTurn) (u a : String) :
    (pushExchange ctx u a).length ≤ 20 ∧
    (∃ dropped, dropped ++ pushExchange ctx u a =
      ctx ++ [⟨ChatRole.user, u⟩, ⟨ChatRole.assistant, a⟩]) ∧
    (20 < ctx.length + 2 → (pushExchange ctx u a).length = 20) := by
  have hlen : (ctx ++ [(⟨ChatRole.user, u⟩ : ConversationTurn),
      ⟨ChatRole.assistant, a⟩]).length = ctx.length + 2 := by simp
  simp only [pushExchange]
  split
  · rename_i hgt
    refine ⟨?_, ⟨(ctx ++ [(⟨ChatRole.user, u⟩ : ConversationTurn),
        ⟨ChatRole.assistant, a⟩]).take
        ((ctx ++ [(⟨ChatRole.user, u⟩ : ConversationTurn),
          ⟨ChatRole.assistant, a⟩]).length - 20),
      List.take_append_drop _ _⟩, ?_⟩
    · rw [List.length_drop]
      omega
    · intro h20
      rw [List.length_drop]
      omega
  · rename_i hle
    rw [hlen] at hle
    exact ⟨by rw [hlen]; omega, ⟨[], by simp⟩, fun h20 => by omega⟩

/-- Witness for C7: a full context of 20 turns plus one more exchange keeps
exactly the most recent 20. -/
theorem c7_witness :
    20 < (List.replicate 20 (⟨ChatRole.user, "m"⟩ : ConversationTurn)).length + 2 ∧
    (pushExchange (List.replicate 20 ⟨ChatRole.user, "m"⟩) "u" "a").length = 20 :=
  ⟨by decide,
    (c7_context_cap (List.replicate 20 ⟨ChatRole.user, "m"⟩) "u" "a").2.2 (by decide)⟩

theorem renderMarkdown_data (s : String) :
    (renderMarkdown s).data = renderMarkdownL s.data := by
  unfold renderMarkdown
  dsimp only

/-- C8: the markdown transform escapes raw HTML first and then applies the
formatting rules: the input `**hi** and `code`` renders to exactly
`<strong>hi</strong> and <code>code</code>`, and for every input containing
`<script>` the output contains the escaped `&lt;script&gt;` and never a raw
`<script>` element. -/
theorem c8_markdown_safe (s : String) :
    renderMarkdown "**hi** and `code`" =
      "<strong>hi</strong> and <code>code</code>" ∧
    (strIncludes s "<script>" = true →
      strIncludes (renderMarkdown s) "&lt;script&gt;" = true ∧
      strIncludes (renderMarkdown s) "<script>" = false) := by
  refine ⟨by decide, fun h => ⟨?_, ?_⟩⟩
  · show hasSub "&lt;script&gt;".data (renderMarkdown s).data = true
    rw [renderMarkdown_data]
    exact renderMarkdownL_keeps_script
      (show hasSub "<script>".data s.data = true from h)
  · show hasSub "<script>".data (renderMarkdown s).data = false
    rw [renderMarkdown_data]
    exact renderMarkdownL_no_script s.data

/-- Witness for C8 at the literal `<script>` input. -/
theorem c8_witness :
    strIncludes "<script>alert(1)</script>" "<script>" = true ∧
    strIncludes (renderMarkdown "<script>alert(1)</script>") "&lt;script&gt;" = true ∧
    strIncludes (renderMarkdown "<script>alert(1)</script>") "<script>" = false :=
  ⟨by decide,
    ((c8_markdown_safe "<script>alert(1)</script>").2 (by decide)).1,
    ((c8_markdown_safe "<script>alert(1)</script>").2 (by decide)).2⟩

/-- C9: every animation a strategy can produce is `null` or one of the five
emote names: the pattern strategy's reply tables only hold these values, and
`extractAnimationFromText` (used by the LLM strategies) returns only these
values or `null`, for every input text and every random draw. -/
theorem c9_animation_range (msg text : String) (choice idx : Nat) (roll30 : Bool) :
    (∀ a, (generatePatternResponse msg choice).animation = some a →
      a ∈ validAnimations) ∧
    (∀ a, extractAnimationFromText text roll30 idx = some a →
      a ∈ validAnimations) := by
  constructor
  · intro a ha
    have htable : ∀ r ∈ responseRules, r.replies ≠ [] ∧
        ∀ resp ∈ r.replies, animValid resp.animation = true := by decide
    simp only [generatePatternResponse] at ha
    cases hfr : findRule (lowerStr msg) responseRules with
    | some r =>
      rw [hfr] at ha
      have hrmem := findRule_mem hfr
      have hprops := htable r hrmem
      have hpm := pickReply_mem hprops.1 choice
      exact animValid_mem (hprops.2 _ hpm) ha
    | none =>
      rw [hfr] at ha
      have hdprops : defaultReplies ≠ [] ∧
          ∀ resp ∈ defaultReplies, animValid resp.animation = true := by decide
      have hpm := pickReply_mem hdprops.1 choice
      exact animValid_mem (hdprops.2 _ hpm) ha
  · intro a ha
    simp only [extractAnimationFromText] at ha
    split at ha
    · injection ha with h1; subst h1; decide
    · split at ha
      · injection ha with h1; subst h1; decide
      · split at ha
        · injection ha with h1; subst h1; decide
        · split at ha
          · injection ha with h1; subst h1; decide
          · split at ha
            · injection ha with h1; subst h1; decide
            · split at ha
              · injection ha with h1
                subst h1
                have hlt : idx % validAnimations.length < validAnimations.length :=
                  Nat.mod_lt _ (by decide)
                rw [List.getD_eq_getElem _ _ hlt]
                exact List.getElem_mem hlt
              · exact absurd ha (by simp)

/-- C10: `addMessage` with sender `system` displays but never stores: the
chat history is unchanged; `user` and `robot` messages are appended at the
end (FIFO-trimmed from the front past the 50-entry cap, which is never
exceeded). -/
theorem c10_system_not_stored (history : List ChatMessage) (text sender : String)
    (ts : Nat) :
    addMessageHistory history text "system" ts = history ∧
    (sender ≠ "system" →
      (addMessageHistory history text sender ts).getLast? =
        some ⟨text, sender, ts⟩ ∧
      (∃ dropped, dropped ++ addMessageHistory history text sender ts =
        history ++ [⟨text, sender, ts⟩]) ∧
      (history.length ≤ 50 →
        (addMessageHistory history text sender ts).length ≤ 50)) := by
  constructor
  · simp [addMessageHistory]
  · intro hs
    simp only [addMessageHistory, if_neg hs]
    split
    · rename_i hgt
      cases history with
      | nil => simp at hgt
      | cons m ms =>
        refine ⟨?_, ⟨[m], by simp⟩, ?_⟩
        · simp [List.getLast?_concat]
        · intro h50
          simp at hgt h50 ⊢
          omega
    · rename_i hle
      refine ⟨List.getLast?_concat _, ⟨[], by simp⟩, fun h50 => ?_⟩
      simp at hle ⊢
      omega

/-- Witness for C10: a robot message is appended; a system message is not. -/
theorem c10_witness :
    addMessageHistory [] "hi" "system" 5 = [] ∧
    ((addMessageHistory [] "hi" "robot" 5).getLast? = some ⟨"hi", "robot", 5⟩ ∧
      (∃ dropped, dropped ++ addMessageHistory [] "hi" "robot" 5 =
        [] ++ [⟨"hi", "robot", 5⟩]) ∧
      (([] : List ChatMessage).length ≤ 50 →
        (addMessageHistory [] "hi" "robot" 5).length ≤ 50)) :=
  ⟨(c10_system_not_stored [] "hi" "robot" 5).1,
    (c10_system_not_stored [] "hi" "robot" 5).2 (by decide)⟩

/-- Witness for C9 at concrete inputs: a pattern reply with `Wave` and a
keyword-derived `ThumbsUp`, both in the valid animation set. -/
theorem c9_witness :
    (generatePatternResponse "hello" 0).animation = some "Wave" ∧
    "Wave" ∈ validAnimations ∧
    extractAnimationFromText "that is great" false 0 = some "ThumbsUp" ∧
    "ThumbsUp" ∈ validAnimations :=
  ⟨by decide,
    (c9_animation_range "hello" "that is great" 0 0 false).1 "Wave" (by decide),
    by decide,
    (c9_animation_range "hello" "that is great" 0 0 false).2 "ThumbsUp" (by decide)⟩
